import Mathlib

/-!
Verification of the weekly meal-planning and shopping-list core of the
brinkhorst-family-ops repository.

The Python source (backend/app/services/shop_output.py, shop_ai.py,
swap_service.py and the weekly-plan handlers of backend/app/main.py) is
shallowly embedded below.  Strings are modelled as Lean `String` / `List Char`;
Python floats appearing in quantity arithmetic are modelled as exact fractions
(all values reached in this development are small integers or tenths, where
binary floating point is exact); the recipe table read in randomized order is
passed in as an explicit `List Recipe` argument; persisted rows (weekly plan,
draft, avoid list) become fields of an explicit state record.
-/

namespace FamilyOps

/-! ### Character-level helpers shared by the string pipelines -/

/-- Whitespace as recognised by Python `str.strip` / regex `\s` for the
character repertoire occurring in this code base. -/
def isWs (c : Char) : Bool :=
  c == ' ' || c == '\t' || c == '\n' || c == '\r' || c == '\x0b' || c == '\x0c'

/-- The punctuation class of `PUNCT_RE` in shop_output.py:
`[.,;:!?()\[\]{}"'`´/\\|]`. -/
def isPunct (c : Char) : Bool :=
  c == '.' || c == ',' || c == ';' || c == ':' || c == '!' || c == '?' ||
  c == '(' || c == ')' || c == '[' || c == ']' ||
  c == Char.ofNat 123 || c == Char.ofNat 125 ||
  c == Char.ofNat 34 || c == Char.ofNat 39 || c == Char.ofNat 96 ||
  c == Char.ofNat 180 || c == '/' || c == '\\' || c == '|'

/-- Upper-case/lower-case letter pairs handled by this model of Python
`str.lower` (ASCII letters plus the German umlauts that occur in the data). -/
def caseTable : List (Char × Char) :=
  [('A', 'a'), ('B', 'b'), ('C', 'c'), ('D', 'd'), ('E', 'e'), ('F', 'f'),
   ('G', 'g'), ('H', 'h'), ('I', 'i'), ('J', 'j'), ('K', 'k'), ('L', 'l'),
   ('M', 'm'), ('N', 'n'), ('O', 'o'), ('P', 'p'), ('Q', 'q'), ('R', 'r'),
   ('S', 's'), ('T', 't'), ('U', 'u'), ('V', 'v'), ('W', 'w'), ('X', 'x'),
   ('Y', 'y'), ('Z', 'z'), ('Ä', 'ä'), ('Ö', 'ö'), ('Ü', 'ü')]

/-- Model of Python `str.lower` on one character. -/
def lowerChar (c : Char) : Char :=
  ((caseTable.find? (fun p => p.1 == c)).map Prod.snd).getD c

/-- Model of Python `str.upper` on one character (`ß` is handled separately
where it matters, see `titleWord`). -/
def upperChar (c : Char) : Char :=
  ((caseTable.find? (fun p => p.2 == c)).map Prod.fst).getD c

/-- Strip leading and trailing whitespace, Python `str.strip()`. -/
def stripChars (l : List Char) : List Char :=
  ((l.dropWhile isWs).reverse.dropWhile isWs).reverse

/-- Python `str.strip()` at `String` level. -/
def pyStrip (s : String) : String :=
  ⟨stripChars s.data⟩

/-- Split into maximal whitespace-free words, Python `str.split()`. -/
def pyWordsAux : List Char → List Char → List (List Char)
  | [], acc => if acc = [] then [] else [acc.reverse]
  | c :: cs, acc =>
    if isWs c then
      if acc = [] then pyWordsAux cs [] else acc.reverse :: pyWordsAux cs []
    else pyWordsAux cs (c :: acc)

def pyWords (l : List Char) : List (List Char) :=
  pyWordsAux l []

/-- `" ".join(ws)`. -/
def joinSpace : List (List Char) → List Char
  | [] => []
  | [w] => w
  | w :: ws => w ++ ' ' :: joinSpace ws

/-- `re.sub(r"\s+", " ", s).strip()` equals joining the whitespace-separated
words of `s` with single spaces; the pipelines below use this form. -/
def collapseWs (l : List Char) : List Char :=
  joinSpace (pyWords l)

/-! ### IngredientNormalizer (shop_output.normalize_ingredient) -/

/-- The single-token suffix folding at the end of `normalize_ingredient`:
strip a trailing `en` when longer than 4 characters, else a trailing `e`
when longer than 3. -/
def suffixFold (s : List Char) : List Char :=
  if ['e', 'n'].isSuffixOf s ∧ s.length > 4 then s.take (s.length - 2)
  else if ['e'].isSuffixOf s ∧ s.length > 3 then s.take (s.length - 1)
  else s

/-- The trim / lower-case / punctuation-to-space / whitespace-collapse part of
`normalize_ingredient` (everything before the single-token suffix folding).
`PUNCT_RE.sub(" ", s)` replaces each punctuation run by one space; since the
result is immediately whitespace-collapsed, replacing each punctuation
character by a space is observably the same and is what is done here. -/
def normalizePre (value : List Char) : List Char :=
  collapseWs (((stripChars value).map lowerChar).map
    (fun c => if isPunct c then ' ' else c))

def normalizeChars (value : List Char) : List Char :=
  let s := normalizePre value
  if s = [] then []
  else if s.contains ' ' then s
  else suffixFold s

/-- shop_output.normalize_ingredient: trim, lower-case, replace punctuation by
spaces, collapse whitespace, and fold a simple German plural/inflection
suffix when the result is a single token. -/
def normalize_ingredient (value : String) : String :=
  ⟨normalizeChars value.data⟩

/-- A character that the pre-cleaning pass can no longer change. -/
def GoodChar (c : Char) : Prop :=
  lowerChar c = c ∧ isPunct c = false ∧ isWs c = false

instance : DecidablePred GoodChar := fun c => by
  unfold GoodChar; infer_instance

/-- A joined list of nonempty, whitespace-free words of `GoodChar`s. -/
def GoodWords (ws : List (List Char)) : Prop :=
  ∀ w ∈ ws, w ≠ [] ∧ ∀ c ∈ w, isWs c = false ∧ GoodChar c

/-! ### ShoppingConsolidator helpers (shop_ai.py) -/

/-- Lower-case umlaut/eszett transliteration used by `_normalize_key` and
`_clean_name_for_merge` (applied after lower-casing). -/
def umlautExpand (c : Char) : List Char :=
  if c = 'ä' then ['a', 'e']
  else if c = 'ö' then ['o', 'e']
  else if c = 'ü' then ['u', 'e']
  else if c = 'ß' then ['s', 's']
  else [c]

def isLowerAlnum (c : Char) : Bool :=
  ('a' ≤ c && c ≤ 'z') || ('0' ≤ c && c ≤ '9')

/-- shop_ai._normalize_key: strip, lower, transliterate umlauts, drop every
character outside `[a-z0-9]`. -/
def keyChars (l : List Char) : List Char :=
  (((stripChars l).map lowerChar).flatMap umlautExpand).filter isLowerAlnum

def normalize_key (s : String) : String :=
  ⟨keyChars s.data⟩

/-- `pat` occurs as a prefix of `l`. -/
def listHasPrefix : List Char → List Char → Bool
  | _, [] => true
  | [], _ :: _ => false
  | a :: as, b :: bs => a == b && listHasPrefix as bs

/-- `pat` occurs as a contiguous substring of `l` (Python `pat in l`). -/
def substringOf (pat : List Char) : List Char → Bool
  | [] => listHasPrefix [] pat
  | c :: rest => listHasPrefix (c :: rest) pat || substringOf pat rest

def isCalcOp (c : Char) : Bool :=
  c == '+' || c == '=' || c == '*' || c == '/' || c == '-'

/-- Tail of `_CALC_STYLE_RE` after an initial digit: optional whitespace, one
of the operator characters + = * accent / - , optional whitespace, a digit. -/
def calcTail (l : List Char) : Bool :=
  match l.dropWhile isWs with
  | op :: l2 =>
    isCalcOp op &&
      (match l2.dropWhile isWs with
       | d :: _ => d.isDigit
       | [] => false)
  | [] => false

/-- `_CALC_STYLE_RE.search`: some position starts `digit \s* op \s* digit`. -/
def calcSearch : List Char → Bool
  | [] => false
  | c :: rest => (c.isDigit && calcTail rest) || calcSearch rest

/-- shop_ai._looks_like_calculation. -/
def looks_like_calculation (s : String) : Bool :=
  let st := stripChars s.data
  calcSearch st || substringOf [' ', '+', ' '] st || st.contains '='

def stopwords : List (List Char) :=
  ["frisch", "frische", "frischer", "frischen", "klein", "kleine", "gross",
   "groß", "fein", "gehackt", "gerieben"].map String.data

def tokenAlias : List (List Char × List Char) :=
  [("knoblauchzehe", "knoblauch"), ("knoblauchzehen", "knoblauch"),
   ("zehe", ""), ("zehen", "")].map (fun p => (p.1.data, p.2.data))

def isTokSep (c : Char) : Bool :=
  isWs c || c == '-'

/-- Split on runs of `[\s-]`, used by `_clean_name_for_merge`. -/
def tokSplitAux : List Char → List Char → List (List Char)
  | [], acc => if acc = [] then [] else [acc.reverse]
  | c :: cs, acc =>
    if isTokSep c then
      if acc = [] then tokSplitAux cs [] else acc.reverse :: tokSplitAux cs []
    else tokSplitAux cs (c :: acc)

def tokSplit (l : List Char) : List (List Char) :=
  tokSplitAux l []

/-- shop_ai._clean_name_for_merge.  `re.sub(r"[^a-z0-9\s-]+", " ", s)` replaces
each run by one space; replacing each such character by a space is observably
the same because the result is immediately split on `[\s-]+`. -/
def clean_name_for_merge (name : List Char) : List Char :=
  let s := ((stripChars name).map lowerChar).flatMap umlautExpand
  let s2 := s.map (fun c => if isLowerAlnum c || isWs c || c == '-' then c else ' ')
  let toks := (tokSplit s2).filterMap (fun tok =>
    let tok := (((tokenAlias.find? (fun p => p.1 == tok)).map Prod.snd).getD tok)
    if tok = [] ∨ tok ∈ stopwords then none
    else if ['e', 'n'].isSuffixOf tok ∧ tok.length > 4 then some (tok.take (tok.length - 2))
    else if ['e'].isSuffixOf tok ∧ tok.length > 4 then some (tok.take (tok.length - 1))
    else some tok)
  if toks = [] then (stripChars name).map lowerChar
  else joinSpace toks

/-- Exact fraction arithmetic standing in for Python floats.  All quantity
values in this pipeline (integers, tenths, hundredths and their sums and
unit-factor products) are exactly representable in binary floating point, so
exact fractions model them faithfully; the denominator is always positive. -/
structure PyFloat where
  num : Int
  den : Nat
deriving DecidableEq

def pfOfNat (n : Nat) : PyFloat := ⟨n, 1⟩

def pfAdd (a b : PyFloat) : PyFloat :=
  ⟨a.num * b.den + b.num * a.den, a.den * b.den⟩

def pfMul (a b : PyFloat) : PyFloat :=
  ⟨a.num * b.num, a.den * b.den⟩

/-- German number words of `_NUMBER_WORDS`, in the alternation order of
`_LEADING_AMOUNT_RE` / `_QUANTITY_HINT_RE`. -/
def numberWords : List (List Char × PyFloat) :=
  [("ein", 1), ("eine", 1), ("einen", 1), ("einer", 1), ("zwei", 2),
   ("drei", 3), ("vier", 4), ("fuenf", 5), ("fünf", 5), ("sechs", 6),
   ("sieben", 7), ("acht", 8), ("neun", 9), ("zehn", 10)].map
    (fun p => ((p.1 : String).data, pfOfNat p.2))

def digitsToNat (l : List Char) : Nat :=
  l.foldl (fun a c => a * 10 + (c.toNat - 48)) 0

/-- `float(num.replace(",", "."))` for a match `ds [./,] ds2` of the numeric
alternative, as an exact fraction. -/
def ratOfDigits (ds ds2 : List Char) : PyFloat :=
  ⟨digitsToNat ds * 10 ^ ds2.length + digitsToNat ds2, 10 ^ ds2.length⟩

/-- The numeric alternative `\d+[.,]?\d*` of `_LEADING_AMOUNT_RE` followed by
`\s*(?P<rest>.+)$`, with the regex backtracking spelled out: the match must
leave a nonempty remainder, and the engine prefers the longest numeral. -/
def parseNumeric (l : List Char) : Option PyFloat × List Char :=
  let ds := l.takeWhile Char.isDigit
  let rest0 := l.drop ds.length
  match rest0 with
  | [] =>
    if 2 ≤ ds.length then
      (some (ratOfDigits (ds.take (ds.length - 1)) []), ds.drop (ds.length - 1))
    else (none, l)
  | sep :: rest1 =>
    if sep = '.' ∨ sep = ',' then
      let ds2 := rest1.takeWhile Char.isDigit
      let afterFull := rest1.drop ds2.length
      if afterFull ≠ [] then
        (some (ratOfDigits ds ds2), afterFull.dropWhile isWs)
      else if ds2 ≠ [] then
        (some (ratOfDigits ds (ds2.take (ds2.length - 1))), ds2.drop (ds2.length - 1))
      else (some (ratOfDigits ds []), [sep])
    else (some (ratOfDigits ds []), rest0.dropWhile isWs)

/-- The number-word alternatives of `_LEADING_AMOUNT_RE` (case-insensitive,
first alternative that leaves a nonempty remainder wins). -/
def parseNumberWord (l : List Char) : Option PyFloat × List Char :=
  match numberWords.find? (fun p =>
      (l.take p.1.length).map lowerChar == p.1 && !(l.drop p.1.length).isEmpty) with
  | some p => (some p.2, (l.drop p.1.length).dropWhile isWs)
  | none => (none, l)

/-- shop_ai._parse_leading_amount. -/
def parse_leading_amount (line : List Char) : Option PyFloat × List Char :=
  match stripChars line with
  | [] => (none, [])
  | c :: cs => if c.isDigit then parseNumeric (c :: cs) else parseNumberWord (c :: cs)

def unitParse : List (List Char × List Char) :=
  [("kg", "kg"), ("g", "g"), ("gramm", "g"), ("l", "l"), ("ml", "ml"),
   ("cl", "cl"), ("el", "el"), ("tl", "tl"), ("stk", "stueck"),
   ("stueck", "stueck"), ("stück", "stueck")].map (fun p => (p.1.data, p.2.data))

/-- shop_ai._split_unit_name. -/
def split_unit_name (rest : List Char) : List Char × List Char :=
  match pyWords rest with
  | [] => ([], [])
  | [p] => ([], p)
  | p :: ps =>
    let cand := ((p.map lowerChar).reverse.dropWhile (· == '.')).reverse
    match unitParse.find? (fun q => q.1 == cand) with
    | some q => (q.2, stripChars (joinSpace ps))
    | none => ([], stripChars rest)

/-- Python `round()` (half-even) on an exact fraction. -/
def pyRound (q : PyFloat) : ℤ :=
  let d : Int := q.den
  let f := Int.fdiv q.num d
  let rem := q.num - f * d
  if 2 * rem < d then f
  else if d < 2 * rem then f + 1
  else if f % 2 = 0 then f else f + 1

/-- shop_ai._format_amount.  `f"{v:.1f}".rstrip("0").rstrip(".")` is modelled
by exact half-even rounding to tenths (only nonnegative amounts occur);
`abs(value - round(value)) < 0.01` becomes `100 * num-distance < den`. -/
def format_amount (v : PyFloat) : List Char :=
  let r := pyRound v
  if 100 * (v.num - r * v.den).natAbs < v.den then (toString r).data
  else
    let n := pyRound (pfMul v ⟨10, 1⟩)
    if n % 10 = 0 then (toString (n / 10)).data
    else (toString (n / 10)).data ++ '.' :: (toString (n % 10)).data

def categoryKeywords : List (Nat × List String) :=
  [(0, ["rind", "huhn", "hack", "lachs", "fisch", "fleisch", "tofu", "garnelen"]),
   (1, ["tomat", "zwiebel", "knoblauch", "paprika", "salat", "gurk", "karotte",
        "kartoffel", "brokkoli", "obst"]),
   (2, ["reis", "nudel", "pasta", "mehl", "brot", "hafer", "bohne", "linsen"]),
   (3, ["milch", "kaese", "käse", "joghurt", "sahne", "butter", "ei"]),
   (4, ["salz", "pfeffer", "curry", "paprikapulver", "zimt", "oregano",
        "basilikum", "chili", "essig", "senf"])]

/-- shop_ai._category_rank. -/
def category_rank (name : List Char) : Nat :=
  let ln := name.map lowerChar
  match categoryKeywords.find? (fun p => p.2.any (fun w => substringOf w.data ln)) with
  | some p => p.1
  | none => 3

/-- shop_ai._title_word (`word[:1].upper() + word[1:]`; Python upper-cases
`ß` to `SS`). -/
def titleWord (w : List Char) : List Char :=
  match w with
  | [] => []
  | c :: rest => (if c = 'ß' then ['S', 'S'] else [upperChar c]) ++ rest

/-! ### Association-list model of Python dicts (insertion ordered) -/

/-- Replace the first binding of `k`, else append; Python `d[k] = v`. -/
def alistSet {α β : Type} [BEq α] : List (α × β) → α → β → List (α × β)
  | [], k, v => [(k, v)]
  | p :: rest, k, v => if p.1 == k then (k, v) :: rest else p :: alistSet rest k v

/-- Python `d.get(k)`. -/
def alistGet? {α β : Type} [BEq α] (m : List (α × β)) (k : α) : Option β :=
  (m.find? (fun p => p.1 == k)).map Prod.snd

/-! ### Stage A of the ShoppingConsolidator (shop_ai._pre_aggregate_lines) -/

/-- One entry of the `grouped` dict in `_pre_aggregate_lines`. -/
structure MergeEntry where
  name : List Char
  unit : List Char
  amount : Option PyFloat
  raw : List (List Char)
  summable : Bool
deriving DecidableEq

def unitCanon : List (List Char × List Char) :=
  [("kg", "g"), ("g", "g"), ("gramm", "g"), ("l", "ml"), ("ml", "ml"),
   ("cl", "ml"), ("el", "el"), ("tl", "tl"), ("stk", "stueck"),
   ("stueck", "stueck"), ("stück", "stueck")].map (fun p => (p.1.data, p.2.data))

def unitCanonGet (u : List Char) : List Char :=
  (((unitCanon.find? (fun p => p.1 == u)).map Prod.snd)).getD u

def unitFactor : List (List Char × PyFloat) :=
  [("kg", 1000), ("g", 1), ("gramm", 1), ("l", 1000), ("ml", 1), ("cl", 10)].map
    (fun p => ((p.1 : String).data, pfOfNat p.2))

def unitFactorGet? (u : List Char) : Option PyFloat :=
  (unitFactor.find? (fun p => p.1 == u)).map Prod.snd

def unitFactorGetD (u : List Char) : PyFloat :=
  (unitFactorGet? u).getD (pfOfNat 1)

/-- The amount/unit merging of `_pre_aggregate_lines` when a line joins an
existing entry and both sides carry amounts. -/
def mergeAmounts (e : MergeEntry) (a : PyFloat) (nu : List Char) : MergeEntry :=
  let cu := e.unit
  let ea := e.amount.getD (pfOfNat 0)
  if cu = nu then { e with amount := some (pfAdd ea a) }
  else
    let bc := unitCanonGet cu
    let bn := unitCanonGet nu
    if (unitFactorGet? bc).isSome ∧ (unitFactorGet? bn).isSome then
      let curBase := pfMul ea (unitFactorGetD (if cu = [] then bc else cu))
      let nextBase := pfMul a (unitFactorGetD (if nu = [] then bn else nu))
      { e with amount := some (pfAdd curBase nextBase), unit := unitCanonGet bc }
    else { e with summable := false, amount := none }

/-- Processing one input line of `_pre_aggregate_lines` against the grouped
dict (`grouped[merge_key]` insertion/update). -/
def mergeStep (grouped : List (List Char × MergeEntry)) (line : List Char) :
    List (List Char × MergeEntry) :=
  let pa := parse_leading_amount line
  let amount := pa.1
  let rest := pa.2
  let su := split_unit_name rest
  let unit := su.1
  let name := if su.2 = [] then rest else su.2
  let mk0 := clean_name_for_merge name
  let mk1 := if mk0 = [] then keyChars name else mk0
  let mergeKey := if mk1 = [] then keyChars line else mk1
  match alistGet? grouped mergeKey with
  | none =>
    alistSet grouped mergeKey
      ⟨stripChars name, unit, amount, [stripChars line], amount.isSome⟩
  | some e0 =>
    let e1 := { e0 with raw := e0.raw ++ [stripChars line] }
    let e2 :=
      if e1.name ≠ [] ∧ (stripChars name).length < e1.name.length then
        { e1 with name := stripChars name }
      else e1
    let e3 :=
      match amount with
      | none => { e2 with summable := false, amount := none }
      | some a =>
        match e2.amount with
        | none => { e2 with summable := false, amount := none }
        | some _ => mergeAmounts e2 a unit
    alistSet grouped mergeKey e3

/-- The output line built from one grouped entry. -/
def entryLine (e : MergeEntry) : List Char :=
  let baseName0 := joinSpace ((pyWords e.name).map titleWord)
  let baseName := if baseName0 = [] ∧ e.raw ≠ [] then e.raw.headD [] else baseName0
  if e.summable ∧ e.amount.isSome then
    let qty := format_amount (e.amount.getD (pfOfNat 0))
    let unit := stripChars e.unit
    if unit ≠ [] then stripChars (qty ++ ' ' :: unit ++ ' ' :: baseName)
    else stripChars (qty ++ ' ' :: baseName)
  else stripChars baseName

/-- Stable insertion sort (Python `sorted` is stable; with a non-strict `le`
an earlier element stays in front of later equal-key elements). -/
def sInsert {α : Type} (le : α → α → Bool) (x : α) : List α → List α
  | [] => [x]
  | y :: ys => if le x y then x :: y :: ys else y :: sInsert le x ys

def insSort {α : Type} (le : α → α → Bool) : List α → List α
  | [] => []
  | x :: xs => sInsert le x (insSort le xs)

/-- Lexicographic code-point comparison, Python string `<=`. -/
def listLe : List Char → List Char → Bool
  | [], _ => true
  | _ :: _, [] => false
  | a :: as, b :: bs =>
    if a.toNat < b.toNat then true
    else if b.toNat < a.toNat then false
    else listLe as bs

/-- The sort key `(category rank, lower-cased line)` of `_pre_aggregate_lines`. -/
def shopLineLe (x y : List Char) : Bool :=
  let rx := category_rank x
  let ry := category_rank y
  if rx < ry then true
  else if ry < rx then false
  else listLe (x.map lowerChar) (y.map lowerChar)

/-- shop_ai._pre_aggregate_lines. -/
def pre_aggregate_lines (lines : List (List Char)) : List (List Char) :=
  let grouped := lines.foldl mergeStep []
  insSort shopLineLe ((grouped.map Prod.snd).map entryLine)

/-! ### Compound-line expansion (shop_ai._expand_compound_lines) -/

/-- Word characters for the regex boundary conditions (`\w`): alphanumeric,
underscore, and the German letters of this code base. -/
def isWordChar (c : Char) : Bool :=
  c.isAlphanum || c == '_' || c == 'ä' || c == 'ö' || c == 'ü' || c == 'ß' ||
  c == 'Ä' || c == 'Ö' || c == 'Ü'

/-- Split on `;` and `,` (`_SPLIT_SEPARATORS_RE`); the surrounding-whitespace
consumption of the regex is subsumed by the strip/filter done by the caller. -/
def sepSplitAux : List Char → List Char → List (List Char)
  | [], acc => [acc.reverse]
  | c :: cs, acc =>
    if c = ';' ∨ c = ',' then acc.reverse :: sepSplitAux cs []
    else sepSplitAux cs (c :: acc)

def sepParts (line : List Char) : List (List Char) :=
  ((sepSplitAux line []).map stripChars).filter (fun p => !p.isEmpty)

/-- Length of a match of the numeric alternative of `_QUANTITY_HINT_RE`
(`\d+[.,]?\d*` preceded by a non-word position and followed by `\b`),
with the regex backtracking spelled out. -/
def qhNumericLen (l : List Char) : Option Nat :=
  let ds := l.takeWhile Char.isDigit
  if ds = [] then none
  else
    let rest0 := l.drop ds.length
    match rest0 with
    | [] => some ds.length
    | c :: rest1 =>
      if c = '.' ∨ c = ',' then
        let ds2 := rest1.takeWhile Char.isDigit
        let after2 := rest1.drop ds2.length
        if !ds2.isEmpty && (match after2 with | [] => true | d :: _ => !isWordChar d) then
          some (ds.length + 1 + ds2.length)
        else if (match rest1 with | d :: _ => isWordChar d | [] => false) then
          some (ds.length + 1)
        else some ds.length
      else if isWordChar c then none
      else some ds.length

/-- Length of a match of a number-word alternative of `_QUANTITY_HINT_RE`. -/
def qhWordLen (l : List Char) : Option Nat :=
  ((numberWords.find? (fun p =>
      (l.take p.1.length).map lowerChar == p.1 &&
      (match l.drop p.1.length with | [] => true | d :: _ => !isWordChar d))).map
    (fun p => p.1.length))

def qhMatchLen (l : List Char) : Option Nat :=
  match qhNumericLen l with
  | some n => some n
  | none => qhWordLen l

/-- `len(_QUANTITY_HINT_RE.findall(part))`: non-overlapping left-to-right scan;
a match may only start where the previous character is not a word character. -/
def qhCountAux : Nat → List Char → Bool → Nat
  | 0, _, _ => 0
  | _ + 1, [], _ => 0
  | fuel + 1, c :: rest, prevWord =>
    if prevWord then qhCountAux fuel rest (isWordChar c)
    else
      match qhMatchLen (c :: rest) with
      | some n =>
        let matched := (c :: rest).take n
        1 + qhCountAux fuel ((c :: rest).drop n)
            (match matched.getLast? with
             | some d => isWordChar d
             | none => false)
      | none => qhCountAux fuel rest (isWordChar c)

def quantityHintCount (l : List Char) : Nat :=
  qhCountAux l.length l false

/-- The connective of `_AND_SPLIT_RE` at the head of `l` (case-insensitive). -/
def andConnectorLen (l : List Char) : Option Nat :=
  if (l.take 3).map lowerChar == ['u', 'n', 'd'] then some 3
  else
    match l with
    | c :: _ => if c = '&' ∨ c = '+' then some 1 else none
    | [] => none

/-- A match of `\s+(?:und|&|\+)\s+` at the head of `l`. -/
def andMatchLen (l : List Char) : Option Nat :=
  let ws1 := l.takeWhile isWs
  if ws1 = [] then none
  else
    let l1 := l.drop ws1.length
    match andConnectorLen l1 with
    | none => none
    | some n =>
      let l2 := l1.drop n
      let ws2 := l2.takeWhile isWs
      if ws2 = [] then none else some (ws1.length + n + ws2.length)

/-- `_AND_SPLIT_RE.split`. -/
def andSplitAux : Nat → List Char → List Char → List (List Char)
  | 0, l, acc => [acc.reverse ++ l]
  | _ + 1, [], acc => [acc.reverse]
  | fuel + 1, c :: rest, acc =>
    match andMatchLen (c :: rest) with
    | some n => acc.reverse :: andSplitAux fuel ((c :: rest).drop n) []
    | none => andSplitAux fuel rest (c :: acc)

def andSplit (l : List Char) : List (List Char) :=
  andSplitAux l.length l []

/-- `re.sub(r"\s+", " ", item)`: collapse whitespace runs to single spaces
(without trimming the ends). -/
def collapseRunsAux : List Char → Bool → List Char
  | [], _ => []
  | c :: rest, inRun =>
    if isWs c then
      if inRun then collapseRunsAux rest true else ' ' :: collapseRunsAux rest true
    else c :: collapseRunsAux rest false

def collapseRuns (l : List Char) : List Char :=
  collapseRunsAux l false

/-- Python `.strip(" -")`. -/
def stripSpaceDash (l : List Char) : List Char :=
  let p : Char → Bool := fun c => c == ' ' || c == '-'
  ((l.dropWhile p).reverse.dropWhile p).reverse

/-- shop_ai._expand_compound_lines.  A part is split on the connectives only
when it has at least two quantity-like tokens or an explicit connective match
(`_AND_SPLIT_RE.search` holds exactly when the split has several parts). -/
def expandPart (part : List Char) : List (List Char) :=
  if 2 ≤ quantityHintCount part ∨ 2 ≤ (andSplit part).length then
    ((andSplit part).map stripChars).filter (fun p => !p.isEmpty)
  else [part]

def expand_compound_lines (lines : List (List Char)) : List (List Char) :=
  lines.flatMap (fun line =>
    (sepParts line).flatMap (fun part =>
      (expandPart part).filterMap (fun item =>
        let cleaned := stripSpaceDash (collapseRuns item)
        if cleaned = [] then none else some cleaned)))

/-! ### Stage-B validator (shop_ai._validate_grouped_output) -/

/-- One element of the assistant's `groups` array after JSON typing: `none`
field values model a missing field or one of the wrong JSON type, and a
`none` inside `source_indexes` models a non-integer array element. -/
structure RawGroup where
  canonical_name : Option String
  merged_line : Option String
  source_indexes : Option (List (Option Int))
deriving DecidableEq

/-- The validator loop state.  The Python code keeps `seen_indexes`,
`seen_groups` and `output_lines`; `acc` here additionally remembers which
accepted indexes belong to which accepted line — `output_lines` is
`acc.map Prod.snd` — so the accounting theorems can speak about it. -/
structure VState where
  seenIdx : List Nat
  seenGroups : List (List Char)
  acc : List (List Nat × String)
deriving DecidableEq

/-- One step of the `for idx in source_indexes` loop: drop non-integers,
out-of-range indexes, and indexes already claimed locally or globally. -/
def localStep (n : Nat) (seen : List Nat) (loc : List Nat) (oi : Option Int) : List Nat :=
  match oi with
  | none => loc
  | some i =>
    if i < 0 ∨ (n : Int) ≤ i then loc
    else
      let j := i.toNat
      if j ∈ loc ∨ j ∈ seen then loc else loc ++ [j]

def computeLocal (idxs : List (Option Int)) (n : Nat) (seen : List Nat) : List Nat :=
  idxs.foldl (localStep n seen) []

/-- The key under which `stepGroup` would register a group, independent of the
validator state: canonical name (or, when blank/absent, the merged line),
normalized; `none` when no key could be computed. -/
def groupKeyOf (g : RawGroup) : Option (List Char) :=
  match g.merged_line with
  | none => none
  | some ml =>
    let canonical :=
      match g.canonical_name with
      | none => ml
      | some cn => if pyStrip cn = "" then ml else cn
    let gk0 := keyChars canonical.data
    let gk := if gk0 = [] then keyChars ml.data else gk0
    if gk = [] then none else some gk

/-- Processing of one group of the assistant response.  The group-key chain
(`canonical_name` falling back to `merged_line`, normalized, `continue` when
empty) is the factored-out `groupKeyOf`. -/
def stepGroup (n : Nat) (st : VState) (g : RawGroup) : VState :=
  match g.merged_line with
  | none => st
  | some ml =>
    if pyStrip ml = "" then st
    else if looks_like_calculation ml then st
    else
      match g.source_indexes with
      | none => st
      | some idxs =>
        if idxs = [] then st
        else
          if computeLocal idxs n st.seenIdx = [] then st
          else
            match groupKeyOf g with
            | none => st
            | some gk =>
              if gk ∈ st.seenGroups then st
              else
                ⟨st.seenIdx ++ computeLocal idxs n st.seenIdx,
                 st.seenGroups ++ [gk],
                 st.acc ++ [(computeLocal idxs n st.seenIdx, pyStrip ml)]⟩

/-- The `for group in groups` loop; a non-dict group aborts the whole
response (`return None`). -/
def processGroups (n : Nat) : List (Option RawGroup) → VState → Option VState
  | [], st => some st
  | none :: _, _ => none
  | some g :: rest, st => processGroups n rest (stepGroup n st g)

/-- Uncovered input rows are appended unchanged (when nonempty). -/
def appendedLines (seen : List Nat) (input : List String) : List String :=
  (List.range input.length).filterMap (fun i =>
    if i ∈ seen then none
    else
      let raw := pyStrip (input.getD i "")
      if raw = "" then none else some raw)

/-- The accepted merged lines followed by the appended uncovered rows — the
validator output before the final key dedup. -/
def preOut (st : VState) (input : List String) : List String :=
  st.acc.map Prod.snd ++ appendedLines st.seenIdx input

/-- The dedup key: `_normalize_key(line)`, falling back to
`line.strip().lower()` when the key is empty. -/
def dedupKey (line : String) : List Char :=
  let k := keyChars line.data
  if k = [] then (stripChars line.data).map lowerChar else k

def dedupByKeyAux : List String → List (List Char) → List String
  | [], _ => []
  | l :: ls, seen =>
    let k := dedupKey l
    if k ∈ seen then dedupByKeyAux ls seen else l :: dedupByKeyAux ls (k :: seen)

/-- shop_ai._validate_grouped_output.  The `groups` field is `none` when the
response has no `groups` list (or it is not a list). -/
def validate_grouped_output (groupsField : Option (List (Option RawGroup)))
    (cleaned_input : List String) : Option (List String) :=
  match groupsField with
  | none => none
  | some groups =>
    if groups = [] then none
    else
      match processGroups cleaned_input.length groups ⟨[], [], []⟩ with
      | none => none
      | some st =>
        let ded := dedupByKeyAux (preOut st cleaned_input) []
        if ded = [] then none else some ded

/-! ### shop_ai.transform_shop_list -/

/-- The environment read by `transform_shop_list`: whether
`OPENAI_API_KEY` is configured, whether `from openai import OpenAI`
succeeds, and the `OPENAI_SHOP_MAX_LINES` cap (default 80). -/
structure AIEnv where
  has_api_key : Bool
  client_available : Bool
  max_lines : Nat
deriving DecidableEq

/-- Outcome of the remote call: an exception (timeout etc.), a response whose
payload is not a JSON object, or a parsed object with its `groups` field. -/
inductive CallOutcome where
  | exn : CallOutcome
  | notDict : CallOutcome
  | dict : Option (List (Option RawGroup)) → CallOutcome
deriving DecidableEq

/-- `[str(x).strip() for x in (to_buy_lines or []) if x and str(x).strip()]`. -/
def rawStripFilter (lines : List String) : List String :=
  (lines.filter (fun x => !(x == "") && !(pyStrip x == ""))).map pyStrip

def expandedInput (lines : List String) : List (List Char) :=
  expand_compound_lines ((rawStripFilter lines).map String.data)

/-- The deterministic stage-A result: expansion followed by the pre-merge
(the pre-merge is kept only when nonempty, as in the source). -/
def stage_a_lines (lines : List String) : List String :=
  let cleaned0 := expandedInput lines
  let prepared := pre_aggregate_lines cleaned0
  (if prepared ≠ [] then prepared else cleaned0).map (fun l => (⟨l⟩ : String))

/-- shop_ai.transform_shop_list, with the environment reads and the remote
call passed in explicitly.  Returns `(result?, warning?)` like the source. -/
def transform_shop_list (env : AIEnv) (call : CallOutcome) (to_buy_lines : List String) :
    Option (List String) × Option String :=
  if expandedInput to_buy_lines = [] then (some [], none)
  else
    let cleaned := stage_a_lines to_buy_lines
    if env.max_lines < cleaned.length then
      (some cleaned, some "AI Sortierung übersprungen (große Liste).")
    else if env.has_api_key = false then
      (none, some "AI Sortierung nicht verfügbar.")
    else if env.client_available = false then
      (some cleaned, some "AI Sortierung nicht verfügbar.")
    else
      match call with
      | .exn => (some cleaned, some "AI Sortierung nicht verfügbar.")
      | .notDict => (some cleaned, some "AI Sortierung nicht verfügbar.")
      | .dict gf =>
        match validate_grouped_output gf cleaned with
        | none => (some cleaned, some "AI Sortierung nicht verfügbar.")
        | some out =>
          if out = [] ∧ cleaned ≠ [] then
            (some cleaned, some "AI Sortierung nicht verfügbar.")
          else (some out, none)

/-! ### PlanBuilder (swap_service.pick_recipes_for_days) -/

/-- An active recipe row as read by the PlanBuilder (id stringified, tags). -/
structure Recipe where
  id : String
  tags : List String
deriving DecidableEq

/-- The plain fill loop: `for r in available: if len(picked) >= count: break;
if str(r.id) in picked: continue; picked.append(str(r.id))`. -/
def pick_fill (avail : List Recipe) (picked : List String) (count : Nat) : List String :=
  match avail with
  | [] => picked
  | r :: rest =>
    if count ≤ picked.length then picked
    else if r.id ∈ picked then pick_fill rest picked count
    else pick_fill rest (picked ++ [r.id]) count

/-- The `while len(picked) + len(dummy) < count` padding loop:
`KI: Neues Rezept 1`, `KI: Neues Rezept 2`, … -/
def mkDummies (k : Nat) : List String :=
  (List.range k).map (fun i => "KI: Neues Rezept " ++ toString (i + 1))

/-- swap_service.pick_recipes_for_days.  `all_recipes` is the active recipe
table in the randomized order produced by `order_by(func.random())`. -/
def pick_recipes_for_days (all_recipes : List Recipe) (existing_ids : List String)
    (count : Nat) (prefer_tags : List String) (prefer_max : Nat) :
    List String × List String :=
  let available := all_recipes.filter (fun r => !(existing_ids.contains r.id))
  let prefer_set := prefer_tags.filter (fun t => !(t == ""))
  let preferred :=
    if prefer_set = [] then []
    else available.filter (fun r => r.tags.any (fun t => prefer_set.contains t))
  let picked1 :=
    if prefer_set ≠ [] ∧ 0 < prefer_max then (preferred.map Recipe.id).take prefer_max
    else []
  let picked := pick_fill available picked1 count
  (picked, mkDummies (count - picked.length))

/-! ### SwapEngine (swap_service + weekly handlers of main.py) -/

/-- Python `value.startswith("KI:")`, the placeholder-slot marker test. -/
def kiMarker (v : String) : Bool :=
  v.data.take 3 == ['K', 'I', ':']

/-- swap_service.update_avoid_list_for_reroll: every swap day currently showing
a real recipe contributes its id (the Python set is modelled as a list with
set semantics: an id is only added when not yet present). -/
def update_avoid_list_for_reroll (current_days : List (String × String))
    (swap_days : List Nat) (avoid_ids : List String) : List String :=
  swap_days.foldl (fun acc d =>
    match alistGet? current_days (toString d) with
    | some rid =>
      if rid ≠ "" ∧ kiMarker rid = false then
        if rid ∈ acc then acc else acc ++ [rid]
      else acc
    | none => acc) avoid_ids

/-- Distribution of the picked ids / dummy titles over the swap days
(step 4 of swap_service.apply_swaps). -/
def distribute (stamp : String) :
    List (String × String) → List Nat → List String → List String →
    List (String × String)
  | m, [], _, _ => m
  | m, d :: rest, p :: ps, dummy =>
    distribute stamp (alistSet m (toString d) p) rest ps dummy
  | m, d :: rest, [], dummy =>
    let base := dummy.headD "KI: Neues Rezept"
    distribute stamp
      (alistSet m (toString d) (base ++ " (" ++ stamp ++ "-" ++ toString d ++ ")"))
      rest [] dummy.tail

/-- swap_service.apply_swaps.  `stamp` is the `%H%M%S` disambiguator; the
banned set is modelled as a list with the same membership. -/
def apply_swaps (all_recipes : List Recipe) (stamp : String)
    (base_days : List (String × String)) (swap_days : List Nat)
    (avoid_ids : List String) : List (String × String) :=
  let banned :=
    ((base_days.map Prod.snd).filter (fun v => !(v == "") && !(kiMarker v))) ++ avoid_ids
  let cleared := swap_days.foldl (fun m d => alistSet m (toString d) "") base_days
  let pd := pick_recipes_for_days all_recipes banned swap_days.length [] 0
  distribute stamp cleared swap_days pd.1 pd.2

/-! ### The plan/draft/avoid state machine (main.py weekly handlers)

The three persisted rows for one week-start become one record.  The plan and
draft ids are bookkeeping the handlers never branch on and are omitted. -/

structure Draft where
  proposed_days : List (String × String)
  requested_swaps : List Nat
deriving DecidableEq

structure AppState where
  plan : Option (List (String × String))
  draft : Option Draft
  avoid : List String
deriving DecidableEq

/-- The structured (never-raising) result the handlers return. -/
structure WeeklyResponse where
  ok : Bool
  message : String
deriving DecidableEq

/-- `_set_swap_avoid_list` stores `sorted({rid for rid in avoid_list if rid})`. -/
def pySortedUnique (l : List String) : List String :=
  insSort (fun a b => listLe a.data b.data) ((l.filter (fun x => !(x == ""))).dedup)

/-- Distribution of picked ids / dummy titles over days 1..7
(main._build_new_week_plan).  The callers guarantee
`len(picked) + len(dummies) = 7`, so the `""` default is never reached. -/
def buildDaysAux : List Nat → List String → List String → List (String × String)
  | [], _, _ => []
  | d :: rest, p :: ps, dummy => (toString d, p) :: buildDaysAux rest ps dummy
  | d :: rest, [], dummy => (toString d, dummy.headD "") :: buildDaysAux rest [] dummy.tail

/-- main._build_new_week_plan: `prefer_max = int(7 * 0.5) = 3` whenever any
preference tag exists, else 0; an empty exclusion set. -/
def build_new_week_plan (recipes : List Recipe) (tags : List String) :
    List (String × String) :=
  let prefer_max := if tags ≠ [] then 3 else 0
  let pd := pick_recipes_for_days recipes [] 7 tags prefer_max
  buildDaysAux [1, 2, 3, 4, 5, 6, 7] pd.1 pd.2

/-- main.api_weekly_plan / the telegram `plan` command: upsert the weekly
plan; the draft row and the avoid list are not touched. -/
def planOp (recipes : List Recipe) (tags : List String) (s : AppState) : AppState :=
  { s with plan := some (build_new_week_plan recipes tags) }

/-- main._run_swap_preview. -/
def swapOp (recipes : List Recipe) (stamp : String) (s : AppState) (ds : List Nat) :
    AppState × WeeklyResponse :=
  match s.plan with
  | none => (s, ⟨false, "Kein Plan vorhanden. Erst `plan` ausführen."⟩)
  | some pdays =>
    let draftBase :=
      match s.draft with
      | some dr => if dr.proposed_days ≠ [] then some dr else none
      | none => none
    match draftBase with
    | some dr =>
      let avoidNow := update_avoid_list_for_reroll dr.proposed_days ds s.avoid
      let proposed := apply_swaps recipes stamp dr.proposed_days ds avoidNow
      (⟨some pdays, some ⟨proposed, ds⟩, pySortedUnique avoidNow⟩,
       ⟨true, "Swap Vorschau erstellt."⟩)
    | none =>
      let proposed := apply_swaps recipes stamp pdays ds []
      (⟨some pdays, some ⟨proposed, ds⟩, []⟩, ⟨true, "Swap Vorschau erstellt."⟩)

/-- main.api_weekly_confirm / telegram `confirm`. -/
def confirmOp (s : AppState) : AppState × WeeklyResponse :=
  match s.draft with
  | none => (s, ⟨false, "Kein Draft vorhanden. Nutze erst `swap ...`."⟩)
  | some dr => (⟨some dr.proposed_days, none, []⟩, ⟨true, "✅ Übernommen."⟩)

/-- main.api_weekly_cancel / telegram `cancel`. -/
def cancelOp (s : AppState) : AppState × WeeklyResponse :=
  ({ s with draft := none, avoid := [] }, ⟨true, "Draft verworfen."⟩)

/-- States reachable from the empty store through the weekly handlers, with
swap requests carrying the day validation of `api_weekly_swap` /
`_parse_swap_days` (nonempty, unique, in 1..7). -/
inductive Reachable : AppState → Prop
  | init : Reachable ⟨none, none, []⟩
  | plan (recipes : List Recipe) (tags : List String) {s : AppState} :
      Reachable s → Reachable (planOp recipes tags s)
  | swap (recipes : List Recipe) (stamp : String) {s : AppState} (ds : List Nat) :
      Reachable s → ds ≠ [] → ds.Nodup → (∀ d ∈ ds, 1 ≤ d ∧ d ≤ 7) →
      Reachable (swapOp recipes stamp s ds).1
  | confirm {s : AppState} : Reachable s → Reachable (confirmOp s).1
  | cancel {s : AppState} : Reachable s → Reachable (cancelOp s).1

/-!
## Theorems

All definitions above, all lemmas and claim theorems below.
-/

example : normalize_ingredient "  Tomaten!! " = "tomat" := by decide
example : normalize_ingredient "Allee" = "alle" := by decide
example : normalize_ingredient "alle" = "all" := by decide
example : normalize_ingredient "Brühe" = "brüh" := by decide
example : normalize_ingredient "Bouillon Würfel" = "bouillon würfel" := by decide

/-! ### Lemmas about the normalization pipeline (needed for C6) -/

theorem lowerChar_table_fixed : ∀ p ∈ caseTable, lowerChar p.2 = p.2 := by decide

theorem lowerChar_idem (c : Char) : lowerChar (lowerChar c) = lowerChar c := by
  rcases h : caseTable.find? (fun p => p.1 == c) with _ | p
  · have hc : lowerChar c = c := by unfold lowerChar; rw [h]; rfl
    rw [hc, hc]
  · have hc : lowerChar c = p.2 := by unfold lowerChar; rw [h]; rfl
    rw [hc]
    exact lowerChar_table_fixed p (List.mem_of_find?_eq_some h)

theorem good_of_preclean (c : Char) :
    let d := if isPunct (lowerChar c) then ' ' else lowerChar c
    isWs d = false → GoodChar d := by
  intro d hws
  by_cases hp : isPunct (lowerChar c) = true
  · exfalso
    have : d = ' ' := by simp [d, hp]
    rw [this] at hws
    exact absurd hws (by decide)
  · have hd : d = lowerChar c := by simp [d, hp]
    refine ⟨?_, ?_, hws⟩
    · rw [hd]; exact lowerChar_idem c
    · rw [hd]; exact Bool.not_eq_true _ ▸ (by simpa using hp)

theorem pyWordsAux_nil (acc : List Char) :
    pyWordsAux [] acc = if acc = [] then [] else [acc.reverse] := rfl

theorem pyWordsAux_cons_of_ws {c : Char} (hc : isWs c = true) (l acc : List Char) :
    pyWordsAux (c :: l) acc
      = if acc = [] then pyWordsAux l [] else acc.reverse :: pyWordsAux l [] := by
  simp only [pyWordsAux]
  rw [if_pos hc]

theorem pyWordsAux_cons_of_not_ws {c : Char} (hc : isWs c = false) (l acc : List Char) :
    pyWordsAux (c :: l) acc = pyWordsAux l (c :: acc) := by
  simp only [pyWordsAux]
  rw [if_neg (by simp [hc])]

theorem pyWordsAux_spec (P : Char → Prop) :
    ∀ (l acc : List Char), (∀ c ∈ l, isWs c = false → P c) →
      (∀ c ∈ acc, isWs c = false ∧ P c) →
      ∀ w ∈ pyWordsAux l acc, w ≠ [] ∧ ∀ c ∈ w, isWs c = false ∧ P c
  | [], acc, _, hacc => by
    intro w hw
    rw [pyWordsAux_nil] at hw
    by_cases h : acc = []
    · rw [if_pos h] at hw
      simp at hw
    · rw [if_neg h] at hw
      rcases List.mem_singleton.mp hw with rfl
      refine ⟨?_, fun c hc => hacc c (List.mem_reverse.mp hc)⟩
      intro hnil
      exact h (List.reverse_eq_nil_iff.mp hnil)
  | a :: l, acc, hl, hacc => by
    intro w hw
    by_cases hws : isWs a
    · rw [pyWordsAux_cons_of_ws hws] at hw
      by_cases h : acc = []
      · rw [if_pos h] at hw
        exact pyWordsAux_spec P l [] (fun c hc => hl c (List.mem_cons_of_mem _ hc))
          (by simp) w hw
      · rw [if_neg h] at hw
        rcases List.mem_cons.mp hw with rfl | hw
        · refine ⟨?_, fun c hc => hacc c (List.mem_reverse.mp hc)⟩
          intro hnil
          exact h (List.reverse_eq_nil_iff.mp hnil)
        · exact pyWordsAux_spec P l [] (fun c hc => hl c (List.mem_cons_of_mem _ hc))
            (by simp) w hw
    · rw [pyWordsAux_cons_of_not_ws (by simpa using hws)] at hw
      refine pyWordsAux_spec P l (a :: acc)
        (fun c hc => hl c (List.mem_cons_of_mem _ hc)) ?_ w hw
      intro c hc
      rcases List.mem_cons.mp hc with rfl | hc
      · have ha : isWs c = false := by simpa using hws
        exact ⟨ha, hl c (List.mem_cons_self _ _) ha⟩
      · exact hacc c hc

theorem pyWords_spec (P : Char → Prop) (l : List Char)
    (hl : ∀ c ∈ l, isWs c = false → P c) :
    ∀ w ∈ pyWords l, w ≠ [] ∧ ∀ c ∈ w, isWs c = false ∧ P c :=
  pyWordsAux_spec P l [] hl (by simp)

theorem pyWordsAux_word (w : List Char) (hw : ∀ c ∈ w, isWs c = false) :
    ∀ (l acc : List Char), pyWordsAux (w ++ l) acc = pyWordsAux l (w.reverse ++ acc) := by
  induction w with
  | nil => intro l acc; rfl
  | cons c w ih =>
    intro l acc
    have hc : isWs c = false := hw c (List.mem_cons_self _ _)
    show pyWordsAux (c :: (w ++ l)) acc = _
    rw [pyWordsAux_cons_of_not_ws hc]
    rw [ih (fun d hd => hw d (List.mem_cons_of_mem _ hd)) l (c :: acc)]
    simp

theorem pyWords_joinSpace (ws : List (List Char))
    (h : ∀ w ∈ ws, w ≠ [] ∧ ∀ c ∈ w, isWs c = false) :
    pyWords (joinSpace ws) = ws := by
  induction ws with
  | nil => rfl
  | cons w ws ih =>
    rcases h w (List.mem_cons_self _ _) with ⟨hne, hchars⟩
    cases ws with
    | nil =>
      show pyWords w = [w]
      unfold pyWords
      conv_lhs => rw [← List.append_nil w]
      rw [pyWordsAux_word w hchars [] [], pyWordsAux_nil]
      rw [if_neg (by simp [hne])]
      simp
    | cons w' ws' =>
      show pyWordsAux (w ++ ' ' :: joinSpace (w' :: ws')) [] = w :: w' :: ws'
      rw [pyWordsAux_word w hchars _ []]
      rw [pyWordsAux_cons_of_ws (by decide)]
      rw [if_neg (by simp [hne])]
      rw [List.append_nil, List.reverse_reverse]
      exact congrArg (w :: ·) (ih (fun u hu => h u (List.mem_cons_of_mem _ hu)))

theorem joinSpace_ne_nil (ws : List (List Char)) (hne : ws ≠ [])
    (h : ∀ w ∈ ws, w ≠ []) : joinSpace ws ≠ [] := by
  cases ws with
  | nil => exact absurd rfl hne
  | cons w ws =>
    cases ws with
    | nil => exact h w (List.mem_cons_self _ _)
    | cons w' ws' =>
      show w ++ ' ' :: joinSpace (w' :: ws') ≠ []
      rcases h w (List.mem_cons_self _ _) with hw
      cases w with
      | nil => exact absurd rfl hw
      | cons c t => simp

theorem mem_joinSpace (ws : List (List Char)) (c : Char) (hc : c ∈ joinSpace ws) :
    c = ' ' ∨ ∃ w ∈ ws, c ∈ w := by
  induction ws with
  | nil => simp [joinSpace] at hc
  | cons w ws ih =>
    cases ws with
    | nil => exact Or.inr ⟨w, List.mem_cons_self _ _, hc⟩
    | cons w' ws' =>
      rcases List.mem_append.mp hc with h | h
      · exact Or.inr ⟨w, List.mem_cons_self _ _, h⟩
      · rcases List.mem_cons.mp h with h | h
        · exact Or.inl h
        · rcases ih h with h | ⟨u, hu, hcu⟩
          · exact Or.inl h
          · exact Or.inr ⟨u, List.mem_cons_of_mem _ hu, hcu⟩

theorem head?_mem {α : Type} {l : List α} {a : α} (h : l.head? = some a) : a ∈ l := by
  cases l with
  | nil => simp at h
  | cons x t =>
    simp only [List.head?_cons, Option.some.injEq] at h
    exact h ▸ List.mem_cons_self _ _

theorem joinSpace_head? (w : List Char) (ws : List (List Char)) (hne : w ≠ []) :
    (joinSpace (w :: ws)).head? = w.head? := by
  cases ws with
  | nil => rfl
  | cons w' ws' =>
    show (w ++ ' ' :: joinSpace (w' :: ws')).head? = w.head?
    cases w with
    | nil => exact absurd rfl hne
    | cons c t => rfl

theorem joinSpace_rev_head? (ws : List (List Char))
    (h : ∀ w ∈ ws, w ≠ []) (c : Char)
    (hc : (joinSpace ws).reverse.head? = some c) : ∃ w ∈ ws, c ∈ w := by
  induction ws with
  | nil => simp [joinSpace] at hc
  | cons w ws ih =>
    cases ws with
    | nil =>
      refine ⟨w, List.mem_cons_self _ _, ?_⟩
      exact List.mem_reverse.mp (head?_mem hc)
    | cons w' ws' =>
      have hJ : joinSpace (w' :: ws') ≠ [] :=
        joinSpace_ne_nil _ (by simp) (fun u hu => h u (List.mem_cons_of_mem _ hu))
      have hrev : (joinSpace (w :: w' :: ws')).reverse
          = (joinSpace (w' :: ws')).reverse ++ (' ' :: w.reverse) := by
        show (w ++ ' ' :: joinSpace (w' :: ws')).reverse = _
        rw [List.reverse_append, List.reverse_cons]
        simp
      rw [hrev] at hc
      have hc2 : (joinSpace (w' :: ws')).reverse.head? = some c := by
        rcases hr : (joinSpace (w' :: ws')).reverse with _ | ⟨d, t⟩
        · exact absurd (List.reverse_eq_nil_iff.mp hr) hJ
        · rw [hr, List.cons_append, List.head?_cons] at hc
          rw [List.head?_cons]
          exact hc
      rcases ih (fun u hu => h u (List.mem_cons_of_mem _ hu)) hc2 with ⟨u, hu, hcu⟩
      exact ⟨u, List.mem_cons_of_mem _ hu, hcu⟩

theorem dropWhile_eq_self_of_head? {p : Char → Bool} {l : List Char}
    (h : ∀ c, l.head? = some c → p c = false) : l.dropWhile p = l := by
  cases l with
  | nil => rfl
  | cons c t =>
    have := h c rfl
    simp [List.dropWhile_cons, this]

theorem stripChars_eq_self (l : List Char)
    (h1 : ∀ c, l.head? = some c → isWs c = false)
    (h2 : ∀ c, l.reverse.head? = some c → isWs c = false) :
    stripChars l = l := by
  unfold stripChars
  rw [dropWhile_eq_self_of_head? h1, dropWhile_eq_self_of_head? h2,
    List.reverse_reverse]

theorem map_eq_self_of {f : Char → Char} {l : List Char} (h : ∀ c ∈ l, f c = c) :
    l.map f = l := by
  induction l with
  | nil => rfl
  | cons c t ih =>
    rw [List.map_cons, h c (List.mem_cons_self _ _),
      ih (fun d hd => h d (List.mem_cons_of_mem _ hd))]

theorem normalizePre_words (x : List Char) :
    GoodWords (pyWords (((stripChars x).map lowerChar).map
      (fun c => if isPunct c then ' ' else c))) := by
  apply pyWords_spec
  intro c hc hws
  rcases List.mem_map.mp hc with ⟨d, hd, rfl⟩
  rcases List.mem_map.mp hd with ⟨e, _, rfl⟩
  exact good_of_preclean e hws

theorem stripChars_joinSpace (ws : List (List Char)) (h : GoodWords ws) :
    stripChars (joinSpace ws) = joinSpace ws := by
  apply stripChars_eq_self
  · intro c hc
    cases ws with
    | nil => simp [joinSpace] at hc
    | cons w ws' =>
      rcases h w (List.mem_cons_self _ _) with ⟨hne, hchars⟩
      rw [joinSpace_head? w ws' hne] at hc
      exact (hchars c (head?_mem hc)).1
  · intro c hc
    rcases joinSpace_rev_head? ws (fun w hw => (h w hw).1) c hc with ⟨w, hw, hcw⟩
    exact ((h w hw).2 c hcw).1

theorem map_fixes_joinSpace {f : Char → Char} (ws : List (List Char))
    (h : GoodWords ws) (hsp : f ' ' = ' ')
    (hgood : ∀ c, GoodChar c → f c = c) :
    (joinSpace ws).map f = joinSpace ws := by
  apply map_eq_self_of
  intro c hc
  rcases mem_joinSpace ws c hc with rfl | ⟨w, hw, hcw⟩
  · exact hsp
  · exact hgood c ((h w hw).2 c hcw).2

theorem normalizePre_fixes_joinSpace (ws : List (List Char)) (h : GoodWords ws) :
    normalizePre (joinSpace ws) = joinSpace ws := by
  unfold normalizePre collapseWs
  rw [stripChars_joinSpace ws h]
  rw [map_fixes_joinSpace ws h (by decide) (fun c hg => hg.1)]
  rw [map_fixes_joinSpace ws h (by decide) (fun c hg => by rw [hg.2.1]; exact ite_eq_right_iff.mpr (fun hcon => absurd hcon (by simp [hg.2.1])))]
  rw [pyWords_joinSpace ws (fun w hw => ⟨(h w hw).1, fun c hc => ((h w hw).2 c hc).1⟩)]

theorem normalizeChars_shape (x : List Char) :
    ∃ ws, GoodWords ws ∧ normalizeChars x = joinSpace ws := by
  unfold normalizeChars
  set s := normalizePre x with hs
  have hws : GoodWords (pyWords (((stripChars x).map lowerChar).map
      (fun c => if isPunct c then ' ' else c))) := normalizePre_words x
  have hsj : s = joinSpace (pyWords (((stripChars x).map lowerChar).map
      (fun c => if isPunct c then ' ' else c))) := rfl
  by_cases h0 : s = []
  · exact ⟨[], by intro w hw; simp at hw, by rw [if_pos h0]; rfl⟩
  · rw [if_neg h0]
    by_cases h1 : s.contains ' '
    · rw [if_pos h1]
      exact ⟨_, hws, hsj⟩
    · rw [if_neg h1]
      rcases hp : pyWords (((stripChars x).map lowerChar).map
          (fun c => if isPunct c then ' ' else c)) with _ | ⟨w, ws'⟩
      · exact absurd (by rw [hsj, hp]; rfl) h0
      · cases ws' with
        | nil =>
          have hsw : s = w := by rw [hsj, hp]; rfl
          rcases hws w (by rw [hp]; exact List.mem_cons_self _ _) with ⟨hwne, hwchars⟩
          refine ⟨[suffixFold w], ?_, ?_⟩
          · intro u hu
            rcases List.mem_singleton.mp hu with rfl
            constructor
            · unfold suffixFold
              split
              · rename_i hcond
                intro hnil
                have := congrArg List.length hnil
                simp only [List.length_take, List.length_nil] at this
                omega
              · split
                · rename_i hcond
                  intro hnil
                  have := congrArg List.length hnil
                  simp only [List.length_take, List.length_nil] at this
                  omega
                · exact hwne
            · intro c hc
              have hcw : c ∈ w := by
                unfold suffixFold at hc
                split at hc
                · exact List.mem_of_mem_take hc
                · split at hc
                  · exact List.mem_of_mem_take hc
                  · exact hc
              exact hwchars c hcw
          · rw [hsw]; rfl
        | cons w' ws'' =>
          exfalso
          apply h1
          have : ' ' ∈ s := by
            rw [hsj, hp]
            show ' ' ∈ w ++ ' ' :: joinSpace (w' :: ws'')
            exact List.mem_append_right _ (List.mem_cons_self _ _)
          exact List.elem_iff.mpr this

theorem normalizePre_normalizeChars (x : List Char) :
    normalizePre (normalizeChars x) = normalizeChars x := by
  rcases normalizeChars_shape x with ⟨ws, hws, heq⟩
  rw [heq]
  exact normalizePre_fixes_joinSpace ws hws

/-- Second application of the normalizer, expressed through the first: the
pre-cleaning is idempotent, so only the suffix folding can act again. -/
theorem normalizeChars_twice (x : List Char) :
    normalizeChars (normalizeChars x)
      = if normalizeChars x = [] then []
        else if (normalizeChars x).contains ' ' then normalizeChars x
        else suffixFold (normalizeChars x) := by
  have h := normalizePre_normalizeChars x
  set y := normalizeChars x with hy
  show normalizeChars y = if y = [] then [] else if y.contains ' ' then y else suffixFold y
  unfold normalizeChars
  rw [h]


/-! ### C6 — idempotence of ingredient normalization -/

/-- C6 (counterexample): normalization is not idempotent on every input.  For
`"Allee"` the first pass strips the trailing `e` (giving `"alle"`), and a
second pass strips again (giving `"all"`). -/
theorem normalize_ingredient_not_idempotent_cex :
    normalize_ingredient (normalize_ingredient "Allee") ≠ normalize_ingredient "Allee" := by
  decide

/-- C6 (amended): normalization is idempotent for exactly those inputs whose
normalized form is not subject to a further single-token suffix strip — the
trim/lower/punctuation/whitespace pre-cleaning is always idempotent, so a
second application can only re-apply the plural-suffix folding. -/
theorem normalize_ingredient_idem_of_suffix_stable (s : String)
    (h : suffixFold (normalize_ingredient s).data = (normalize_ingredient s).data) :
    normalize_ingredient (normalize_ingredient s) = normalize_ingredient s := by
  have hd : (normalize_ingredient s).data = normalizeChars s.data := rfl
  rw [hd] at h
  have key : normalizeChars (normalizeChars s.data) = normalizeChars s.data := by
    rw [normalizeChars_twice]
    by_cases h0 : normalizeChars s.data = []
    · rw [if_pos h0, h0]
    · rw [if_neg h0]
      by_cases h1 : (normalizeChars s.data).contains ' '
      · rw [if_pos h1]
      · rw [if_neg h1]
        exact h
  exact congrArg String.mk key

theorem normalize_ingredient_idem_suffix_stable_witness :
    suffixFold (normalize_ingredient "Tomaten").data = (normalize_ingredient "Tomaten").data ∧
    normalize_ingredient (normalize_ingredient "Tomaten") = normalize_ingredient "Tomaten" :=
  ⟨by decide, normalize_ingredient_idem_of_suffix_stable "Tomaten" (by decide)⟩

/-! ### C8 — deterministic quantity merge examples -/

/-- C8: the deterministic pre-merge sums parseable amounts after conversion to
a common base unit: `"2 EL Öl"` and `"1 EL Öl"` merge to one line with amount
3 and the EL unit (canonical token `el`); `"500 g Mehl"` and `"1 kg Mehl"`
merge to amount 1500 with unit `g`. -/
theorem pre_aggregate_quantity_merge_examples :
    pre_aggregate_lines ["2 EL Öl".data, "1 EL Öl".data] = ["3 el Öl".data] ∧
    pre_aggregate_lines ["500 g Mehl".data, "1 kg Mehl".data] = ["1500 g Mehl".data] ∧
    split_unit_name "EL Öl".data = ("el".data, "Öl".data) := by
  refine ⟨by decide, by decide, by decide⟩


/-! ### C1 — build/regenerate plan -/

theorem buildDaysAux_fst (ds : List Nat) :
    ∀ (p q : List String), (buildDaysAux ds p q).map Prod.fst
      = ds.map (fun d => toString d) := by
  induction ds with
  | nil => intro p q; rfl
  | cons d rest ih =>
    intro p q
    cases p with
    | nil => simp [buildDaysAux, ih]
    | cons x xs => simp [buildDaysAux, ih]

/-- C1 (amended): building/regenerating the weekly plan overwrites the
WeeklyPlan with the PlanBuilder result over an empty exclusion set and covers
exactly the day keys 1..7 — but it leaves any existing draft and avoid-set
untouched (the handlers issue no draft delete and no avoid-list clear). -/
theorem plan_overwrites_and_preserves_draft (recipes : List Recipe)
    (tags : List String) (s : AppState) :
    (planOp recipes tags s).draft = s.draft ∧
    (planOp recipes tags s).avoid = s.avoid ∧
    (planOp recipes tags s).plan = some (build_new_week_plan recipes tags) ∧
    (build_new_week_plan recipes tags).map Prod.fst
      = ["1", "2", "3", "4", "5", "6", "7"] := by
  refine ⟨rfl, rfl, rfl, ?_⟩
  show (buildDaysAux [1, 2, 3, 4, 5, 6, 7] _ _).map Prod.fst = _
  rw [buildDaysAux_fst]
  rfl

/-- C1 (counterexample): from a state with a live draft and a nonempty
avoid-set, the build/regenerate operation does not delete them, so the
claimed postcondition (no draft, empty avoid-set) fails. -/
theorem plan_claim_postcondition_cex :
    ¬((planOp [] [] ⟨some [("1", "a")], some ⟨[("1", "b")], [1]⟩, ["x"]⟩).draft = none ∧
      (planOp [] [] ⟨some [("1", "a")], some ⟨[("1", "b")], [1]⟩, ["x"]⟩).avoid = []) := by
  decide

/-! ### C7 — confirm/cancel without a draft -/

theorem swapOp_draft_isSome (recipes : List Recipe) (stamp : String)
    (s : AppState) (ds : List Nat) (p : List (String × String))
    (hp : s.plan = some p) :
    ((swapOp recipes stamp s ds).1.draft).isSome = true := by
  rcases s with ⟨plan, draft, avoid⟩
  obtain rfl : plan = some p := hp
  rcases draft with _ | ⟨pd, rs⟩
  · rfl
  · cases pd with
    | nil => rfl
    | cons x xs => rfl

/-- In every reachable store, the avoid-set is empty whenever no draft exists
(swap always writes a draft together with the avoid-list, and confirm/cancel
delete both). -/
theorem reachable_no_draft_avoid_nil {s : AppState} (hr : Reachable s)
    (hd : s.draft = none) : s.avoid = [] := by
  induction hr with
  | init => rfl
  | plan recipes tags hr ih => exact ih hd
  | swap recipes stamp ds hr hne hnd hbounds ih =>
    rename_i st
    rcases hp : st.plan with _ | pdays
    · have : (swapOp recipes stamp st ds).1 = st := by
        unfold swapOp
        rw [hp]
      rw [this] at hd ⊢
      exact ih hd
    · have := swapOp_draft_isSome recipes stamp st ds pdays hp
      rw [hd] at this
      simp at this
  | confirm hr ih =>
    rename_i st
    rcases hdr : st.draft with _ | dr
    · have : (confirmOp st).1 = st := by
        unfold confirmOp
        rw [hdr]
      rw [this] at hd ⊢
      exact ih hd
    · show (confirmOp st).1.avoid = []
      unfold confirmOp
      rw [hdr]
  | cancel hr ih => rfl

/-- C7: with no draft present, confirm reports a structured "no draft" result
and cancel reports a structured success, and both leave the weekly plan, the
draft state, and the avoid-set unchanged (no exception is raised: both return
plain response values). -/
theorem confirm_cancel_no_draft_noop (s : AppState) (hr : Reachable s)
    (hd : s.draft = none) :
    confirmOp s = (s, ⟨false, "Kein Draft vorhanden. Nutze erst `swap ...`."⟩) ∧
    cancelOp s = (s, ⟨true, "Draft verworfen."⟩) := by
  have hav : s.avoid = [] := reachable_no_draft_avoid_nil hr hd
  constructor
  · unfold confirmOp
    rw [hd]
  · unfold cancelOp
    rcases s with ⟨plan, draft, avoid⟩
    simp only at hd hav
    rw [hd, hav]

theorem confirm_cancel_no_draft_noop_witness :
    confirmOp ⟨none, none, []⟩
        = (⟨none, none, []⟩, ⟨false, "Kein Draft vorhanden. Nutze erst `swap ...`."⟩) ∧
    cancelOp ⟨none, none, []⟩ = (⟨none, none, []⟩, ⟨true, "Draft verworfen."⟩) :=
  confirm_cancel_no_draft_noop ⟨none, none, []⟩ Reachable.init rfl


/-! ### C3 — swap conservation (day set and non-swapped days) -/

theorem alistSet_fst_of_mem {α β : Type} [BEq α] [LawfulBEq α] :
    ∀ (m : List (α × β)) (k : α) (v : β), k ∈ m.map Prod.fst →
      (alistSet m k v).map Prod.fst = m.map Prod.fst
  | [], k, v, h => by simp at h
  | (a, b) :: rest, k, v, h => by
    by_cases hak : (a == k : Bool)
    · unfold alistSet
      rw [if_pos hak]
      have ha : a = k := eq_of_beq hak
      simp [ha]
    · unfold alistSet
      rw [if_neg hak]
      have h' : k = a ∨ k ∈ rest.map Prod.fst := by
        rw [List.map_cons] at h
        exact List.mem_cons.mp h
      rcases h' with h1 | h1
      · exact absurd (show (a == k : Bool) = true by rw [h1]; simp)
          (by simpa using hak)
      · simp [alistSet_fst_of_mem rest k v h1]

theorem alistGet?_alistSet_same {α β : Type} [BEq α] [LawfulBEq α] :
    ∀ (m : List (α × β)) (k : α) (v : β), alistGet? (alistSet m k v) k = some v
  | [], k, v => by simp [alistSet, alistGet?]
  | (a, b) :: rest, k, v => by
    by_cases hak : (a == k : Bool)
    · unfold alistSet
      rw [if_pos hak]
      simp [alistGet?]
    · unfold alistSet
      rw [if_neg hak]
      unfold alistGet?
      rw [List.find?_cons_of_neg _ (by simpa using hak)]
      exact alistGet?_alistSet_same rest k v

theorem alistGet?_alistSet_ne {α β : Type} [BEq α] [LawfulBEq α] :
    ∀ (m : List (α × β)) (k : α) (v : β) (k' : α), k' ≠ k →
      alistGet? (alistSet m k v) k' = alistGet? m k'
  | [], k, v, k', h => by
    have hkk : ((k == k' : Bool)) = false := by
      rw [beq_eq_false_iff_ne]
      exact fun hc => h hc.symm
    simp [alistSet, alistGet?, List.find?, hkk]
  | (a, b) :: rest, k, v, k', h => by
    by_cases hak : (a == k : Bool)
    · have ha : a = k := eq_of_beq hak
      subst ha
      have hb : ((a == k') : Bool) = false := by
        rw [beq_eq_false_iff_ne]
        exact fun hc => h hc.symm
      unfold alistSet
      rw [if_pos hak]
      unfold alistGet?
      rw [List.find?_cons, List.find?_cons]
      simp only [hb]
    · unfold alistSet
      rw [if_neg hak]
      unfold alistGet?
      rw [List.find?_cons, List.find?_cons]
      by_cases hak' : (a == k' : Bool)
      · simp only [hak']
      · simp only [Bool.not_eq_true] at hak'
        simp only [hak']
        exact alistGet?_alistSet_ne rest k v k' h

theorem clearFold_fst (ds : List Nat) :
    ∀ (m : List (String × String)), (∀ d ∈ ds, toString d ∈ m.map Prod.fst) →
      ((ds.foldl (fun m d => alistSet m (toString d) "") m)).map Prod.fst
        = m.map Prod.fst := by
  induction ds with
  | nil => intro m _; rfl
  | cons d rest ih =>
    intro m h
    have hd := h d (List.mem_cons_self _ _)
    have hstep : (alistSet m (toString d) "").map Prod.fst = m.map Prod.fst :=
      alistSet_fst_of_mem m _ _ hd
    rw [List.foldl_cons, ih _ (fun e he => by
      rw [hstep]; exact h e (List.mem_cons_of_mem _ he)), hstep]

theorem clearFold_frame (ds : List Nat) :
    ∀ (m : List (String × String)) (k : String),
      k ∉ ds.map (fun d => toString d) →
      alistGet? (ds.foldl (fun m d => alistSet m (toString d) "") m) k = alistGet? m k := by
  induction ds with
  | nil => intro m k _; rfl
  | cons d rest ih =>
    intro m k h
    have hkd : k ≠ toString d := fun he => h (by rw [he]; exact List.mem_cons_self _ _)
    have hrest : k ∉ rest.map (fun d => toString d) :=
      fun he => h (List.mem_cons_of_mem _ he)
    rw [List.foldl_cons, ih _ k hrest, alistGet?_alistSet_ne m _ _ k hkd]

theorem distribute_fst (stamp : String) :
    ∀ (ds : List Nat) (m : List (String × String)) (picked dummy : List String),
      (∀ d ∈ ds, toString d ∈ m.map Prod.fst) →
      (distribute stamp m ds picked dummy).map Prod.fst = m.map Prod.fst
  | [], m, picked, dummy, _ => rfl
  | d :: rest, m, p :: ps, dummy, h => by
    have hd := h d (List.mem_cons_self _ _)
    have hstep : (alistSet m (toString d) p).map Prod.fst = m.map Prod.fst :=
      alistSet_fst_of_mem m _ _ hd
    show (distribute stamp (alistSet m (toString d) p) rest ps dummy).map Prod.fst = _
    rw [distribute_fst stamp rest _ ps dummy (fun e he => by
      rw [hstep]; exact h e (List.mem_cons_of_mem _ he)), hstep]
  | d :: rest, m, [], dummy, h => by
    have hd := h d (List.mem_cons_self _ _)
    have hstep : (alistSet m (toString d)
        ((dummy.headD "KI: Neues Rezept") ++ " (" ++ stamp ++ "-" ++ toString d ++ ")")).map
          Prod.fst = m.map Prod.fst :=
      alistSet_fst_of_mem m _ _ hd
    show (distribute stamp (alistSet m (toString d) _) rest [] dummy.tail).map Prod.fst = _
    rw [distribute_fst stamp rest _ [] dummy.tail (fun e he => by
      rw [hstep]; exact h e (List.mem_cons_of_mem _ he)), hstep]

theorem distribute_frame (stamp : String) :
    ∀ (ds : List Nat) (m : List (String × String)) (picked dummy : List String)
      (k : String), k ∉ ds.map (fun d => toString d) →
      alistGet? (distribute stamp m ds picked dummy) k = alistGet? m k
  | [], m, picked, dummy, k, _ => rfl
  | d :: rest, m, p :: ps, dummy, k, h => by
    have hkd : k ≠ toString d := fun he => h (by rw [he]; exact List.mem_cons_self _ _)
    have hrest : k ∉ rest.map (fun d => toString d) :=
      fun he => h (List.mem_cons_of_mem _ he)
    show alistGet? (distribute stamp (alistSet m (toString d) p) rest ps dummy) k = _
    rw [distribute_frame stamp rest _ ps dummy k hrest,
      alistGet?_alistSet_ne m _ _ k hkd]
  | d :: rest, m, [], dummy, k, h => by
    have hkd : k ≠ toString d := fun he => h (by rw [he]; exact List.mem_cons_self _ _)
    have hrest : k ∉ rest.map (fun d => toString d) :=
      fun he => h (List.mem_cons_of_mem _ he)
    show alistGet? (distribute stamp (alistSet m (toString d) _) rest [] dummy.tail) k = _
    rw [distribute_frame stamp rest _ [] dummy.tail k hrest,
      alistGet?_alistSet_ne m _ _ k hkd]

theorem mem_days_of_bounds {d : Nat} (h1 : 1 ≤ d) (h2 : d ≤ 7) :
    d ∈ ([1, 2, 3, 4, 5, 6, 7] : List Nat) := by
  interval_cases d <;> decide

/-- C3: a swap request over validated days (each in 1..7) on a base mapping
covering days 1..7 preserves the day-key list exactly (hence the day set stays
`{1..7}`), and every day not in the swap list still maps to exactly the same
slot value as in the base mapping. -/
theorem apply_swaps_day_frame (recipes : List Recipe) (stamp : String)
    (base : List (String × String)) (ds : List Nat) (avoid : List String)
    (hds : ∀ d ∈ ds, 1 ≤ d ∧ d ≤ 7)
    (hcov : ∀ d ∈ ([1, 2, 3, 4, 5, 6, 7] : List Nat), toString d ∈ base.map Prod.fst) :
    (apply_swaps recipes stamp base ds avoid).map Prod.fst = base.map Prod.fst ∧
    ∀ k, k ∉ ds.map (fun d => toString d) →
      alistGet? (apply_swaps recipes stamp base ds avoid) k = alistGet? base k := by
  have hcov' : ∀ d ∈ ds, toString d ∈ base.map Prod.fst := fun d hd =>
    hcov d (mem_days_of_bounds (hds d hd).1 (hds d hd).2)
  have hcleared : ((ds.foldl (fun m d => alistSet m (toString d) "") base)).map Prod.fst
      = base.map Prod.fst := clearFold_fst ds base hcov'
  constructor
  · show (distribute stamp (ds.foldl (fun m d => alistSet m (toString d) "") base) ds _ _).map
        Prod.fst = base.map Prod.fst
    rw [distribute_fst stamp ds _ _ _ (fun d hd => by rw [hcleared]; exact hcov' d hd),
      hcleared]
  · intro k hk
    show alistGet? (distribute stamp (ds.foldl (fun m d => alistSet m (toString d) "") base)
        ds _ _) k = alistGet? base k
    rw [distribute_frame stamp ds _ _ _ k hk, clearFold_frame ds base k hk]

theorem apply_swaps_day_frame_witness :
    (∀ d ∈ ([2, 5] : List Nat), 1 ≤ d ∧ d ≤ 7) ∧
    ((apply_swaps [] "120000"
        [("1", "a"), ("2", "b"), ("3", "c"), ("4", "d"), ("5", "e"), ("6", "f"), ("7", "g")]
        [2, 5] []).map Prod.fst
      = [("1", "a"), ("2", "b"), ("3", "c"), ("4", "d"), ("5", "e"), ("6", "f"),
         ("7", "g")].map Prod.fst ∧
     ∀ k, k ∉ ([2, 5] : List Nat).map (fun d => toString d) →
       alistGet? (apply_swaps [] "120000"
         [("1", "a"), ("2", "b"), ("3", "c"), ("4", "d"), ("5", "e"), ("6", "f"), ("7", "g")]
         [2, 5] []) k
       = alistGet? [("1", "a"), ("2", "b"), ("3", "c"), ("4", "d"), ("5", "e"), ("6", "f"),
         ("7", "g")] k) :=
  ⟨by decide,
   apply_swaps_day_frame [] "120000"
     [("1", "a"), ("2", "b"), ("3", "c"), ("4", "d"), ("5", "e"), ("6", "f"), ("7", "g")]
     [2, 5] [] (by decide) (by decide)⟩


/-! ### C9 — PlanBuilder output contract -/

theorem pick_fill_mem : ∀ (avail : List Recipe) (picked : List String) (count : Nat)
    (x : String), x ∈ pick_fill avail picked count →
      x ∈ picked ∨ ∃ r, r ∈ avail ∧ x = r.id
  | [], _, _, _, h => Or.inl h
  | r :: rest, picked, count, x, h => by
    unfold pick_fill at h
    by_cases h1 : count ≤ picked.length
    · rw [if_pos h1] at h
      exact Or.inl h
    · rw [if_neg h1] at h
      by_cases h2 : r.id ∈ picked
      · rw [if_pos h2] at h
        rcases pick_fill_mem rest picked count x h with h3 | ⟨q, hq, hx⟩
        · exact Or.inl h3
        · exact Or.inr ⟨q, List.mem_cons_of_mem _ hq, hx⟩
      · rw [if_neg h2] at h
        rcases pick_fill_mem rest (picked ++ [r.id]) count x h with h3 | ⟨q, hq, hx⟩
        · rcases List.mem_append.mp h3 with h4 | h4
          · exact Or.inl h4
          · exact Or.inr ⟨r, List.mem_cons_self _ _, by simpa using h4⟩
        · exact Or.inr ⟨q, List.mem_cons_of_mem _ hq, hx⟩

theorem pick_fill_nodup : ∀ (avail : List Recipe) (picked : List String) (count : Nat),
    picked.Nodup → (pick_fill avail picked count).Nodup
  | [], _, _, h => h
  | r :: rest, picked, count, h => by
    unfold pick_fill
    by_cases h1 : count ≤ picked.length
    · rw [if_pos h1]
      exact h
    · rw [if_neg h1]
      by_cases h2 : r.id ∈ picked
      · rw [if_pos h2]
        exact pick_fill_nodup rest picked count h
      · rw [if_neg h2]
        refine pick_fill_nodup rest _ count ?_
        simp [List.nodup_append, h]
        exact h2

theorem pick_fill_length_le : ∀ (avail : List Recipe) (picked : List String) (count : Nat),
    picked.length ≤ count → (pick_fill avail picked count).length ≤ count
  | [], _, _, h => h
  | r :: rest, picked, count, h => by
    unfold pick_fill
    by_cases h1 : count ≤ picked.length
    · rw [if_pos h1]
      exact h
    · rw [if_neg h1]
      by_cases h2 : r.id ∈ picked
      · rw [if_pos h2]
        exact pick_fill_length_le rest picked count h
      · rw [if_neg h2]
        refine pick_fill_length_le rest _ count ?_
        simp only [List.length_append, List.length_singleton]
        omega

theorem mkDummies_length (k : Nat) : (mkDummies k).length = k := by
  simp [mkDummies]

/-- C9 (amended): when `prefer_max ≤ count` (true at every call site: 3 or 0
against count 7, and always 0 from apply_swaps) and the recipe table has
distinct ids, the picked list is duplicate-free, avoids every excluded id,
has size at most `count`, and together with the placeholder list has exactly
`count` entries; `prefer_max = 0` disables preference filling entirely. -/
theorem pick_recipes_spec (all : List Recipe) (existing : List String)
    (count : Nat) (tags : List String) (prefer_max : Nat)
    (hids : (all.map Recipe.id).Nodup) (hpm : prefer_max ≤ count) :
    (pick_recipes_for_days all existing count tags prefer_max).1.Nodup ∧
    (∀ x ∈ (pick_recipes_for_days all existing count tags prefer_max).1, x ∉ existing) ∧
    (pick_recipes_for_days all existing count tags prefer_max).1.length ≤ count ∧
    (pick_recipes_for_days all existing count tags prefer_max).1.length
      + (pick_recipes_for_days all existing count tags prefer_max).2.length = count ∧
    pick_recipes_for_days all existing count tags 0
      = pick_recipes_for_days all existing count [] 0 := by
  have hzero : pick_recipes_for_days all existing count tags 0
      = pick_recipes_for_days all existing count [] 0 := by
    unfold pick_recipes_for_days
    simp
  unfold pick_recipes_for_days
  set available := all.filter (fun r => !(existing.contains r.id)) with havail
  set prefer_set := tags.filter (fun t => !(t == "")) with hps
  set preferred :=
    (if prefer_set = [] then []
     else available.filter (fun r => r.tags.any (fun t => prefer_set.contains t)))
    with hpref
  set picked1 :=
    (if prefer_set ≠ [] ∧ 0 < prefer_max then (preferred.map Recipe.id).take prefer_max
     else []) with hp1
  have havail_ids : (available.map Recipe.id).Nodup :=
    ((List.filter_sublist all).map Recipe.id).nodup hids
  have hpref_sub : preferred.Sublist available := by
    rw [hpref]
    by_cases hps0 : prefer_set = []
    · rw [if_pos hps0]
      exact List.nil_sublist _
    · rw [if_neg hps0]
      exact List.filter_sublist _
  have hp1_nodup : picked1.Nodup := by
    rw [hp1]
    by_cases hcond : prefer_set ≠ [] ∧ 0 < prefer_max
    · rw [if_pos hcond]
      exact ((List.take_sublist _ _).nodup ((hpref_sub.map Recipe.id).nodup havail_ids))
    · rw [if_neg hcond]
      exact List.nodup_nil
  have hp1_len : picked1.length ≤ prefer_max := by
    rw [hp1]
    by_cases hcond : prefer_set ≠ [] ∧ 0 < prefer_max
    · rw [if_pos hcond]
      exact List.length_take_le _ _
    · rw [if_neg hcond]
      simp
  have hp1_mem : ∀ x ∈ picked1, ∃ r, r ∈ available ∧ x = r.id := by
    intro x hx
    rw [hp1] at hx
    by_cases hcond : prefer_set ≠ [] ∧ 0 < prefer_max
    · rw [if_pos hcond] at hx
      have hx2 : x ∈ preferred.map Recipe.id := List.mem_of_mem_take hx
      rcases List.mem_map.mp hx2 with ⟨r, hr, rfl⟩
      exact ⟨r, hpref_sub.mem hr, rfl⟩
    · rw [if_neg hcond] at hx
      simp at hx
  have hfill_mem : ∀ x ∈ pick_fill available picked1 count,
      ∃ r, r ∈ available ∧ x = r.id := by
    intro x hx
    rcases pick_fill_mem available picked1 count x hx with h1 | h1
    · exact hp1_mem x h1
    · exact h1
  have hnotin : ∀ x ∈ pick_fill available picked1 count, x ∉ existing := by
    intro x hx hmem
    rcases hfill_mem x hx with ⟨r, hr, rfl⟩
    have hr' : r ∈ all.filter (fun r => !(existing.contains r.id)) := by
      rw [← havail]
      exact hr
    have hp : (!(existing.contains r.id)) = true := (List.mem_filter.mp hr').2
    rw [Bool.not_eq_true'] at hp
    have he : (existing.contains r.id) = true := List.elem_eq_true_of_mem hmem
    rw [he] at hp
    exact Bool.noConfusion hp
  have hlen : (pick_fill available picked1 count).length ≤ count :=
    pick_fill_length_le _ _ _ (le_trans hp1_len hpm)
  refine ⟨pick_fill_nodup _ _ _ hp1_nodup, hnotin, hlen, ?_, hzero⟩
  rw [mkDummies_length]
  exact Nat.add_sub_cancel' hlen

/-- C9 (counterexample): with `prefer_max` larger than `count` the preference
loop overfills: two preferred recipes against `count = 1` and `prefer_max = 2`
yield a picked list of size 2, violating both `size ≤ count` and
`picked + placeholders = count`. -/
theorem pick_prefer_max_exceeds_count_cex :
    (pick_recipes_for_days [⟨"1", ["x"]⟩, ⟨"2", ["x"]⟩] [] 1 ["x"] 2).1 = ["1", "2"] ∧
    ¬((pick_recipes_for_days [⟨"1", ["x"]⟩, ⟨"2", ["x"]⟩] [] 1 ["x"] 2).1.length ≤ 1 ∧
      (pick_recipes_for_days [⟨"1", ["x"]⟩, ⟨"2", ["x"]⟩] [] 1 ["x"] 2).1.length
        + (pick_recipes_for_days [⟨"1", ["x"]⟩, ⟨"2", ["x"]⟩] [] 1 ["x"] 2).2.length = 1) := by
  decide

theorem pick_recipes_spec_witness :
    ((([⟨"a", []⟩, ⟨"b", []⟩] : List Recipe).map Recipe.id).Nodup ∧ (0 : Nat) ≤ 2) ∧
    ((pick_recipes_for_days [⟨"a", []⟩, ⟨"b", []⟩] ["b"] 2 [] 0).1.Nodup ∧
     (∀ x ∈ (pick_recipes_for_days [⟨"a", []⟩, ⟨"b", []⟩] ["b"] 2 [] 0).1, x ∉ ["b"]) ∧
     (pick_recipes_for_days [⟨"a", []⟩, ⟨"b", []⟩] ["b"] 2 [] 0).1.length ≤ 2 ∧
     (pick_recipes_for_days [⟨"a", []⟩, ⟨"b", []⟩] ["b"] 2 [] 0).1.length
       + (pick_recipes_for_days [⟨"a", []⟩, ⟨"b", []⟩] ["b"] 2 [] 0).2.length = 2 ∧
     pick_recipes_for_days [⟨"a", []⟩, ⟨"b", []⟩] ["b"] 2 [] 0
       = pick_recipes_for_days [⟨"a", []⟩, ⟨"b", []⟩] ["b"] 2 [] 0) :=
  ⟨⟨by decide, by decide⟩,
   pick_recipes_spec [⟨"a", []⟩, ⟨"b", []⟩] ["b"] 2 [] 0 (by decide) (by decide)⟩


/-! ### C2 — avoid-set behaviour across rerolls in one drafting session -/

theorem update_avoid_superset (current : List (String × String)) :
    ∀ (ds : List Nat) (acc : List String) (x : String), x ∈ acc →
      x ∈ update_avoid_list_for_reroll current ds acc
  | [], acc, x, hx => hx
  | d :: rest, acc, x, hx => by
    unfold update_avoid_list_for_reroll
    rw [List.foldl_cons]
    refine update_avoid_superset current rest _ x ?_
    rcases hget : alistGet? current (toString d) with _ | rid
    · simpa [hget] using hx
    · simp only [hget]
      by_cases hcond : rid ≠ "" ∧ kiMarker rid = false
      · rw [if_pos hcond]
        by_cases hin : rid ∈ acc
        · rw [if_pos hin]
          exact hx
        · rw [if_neg hin]
          exact List.mem_append_left _ hx
      · rw [if_neg hcond]
        exact hx

theorem update_avoid_adds (current : List (String × String)) :
    ∀ (ds : List Nat) (acc : List String) (d : Nat), d ∈ ds →
      ∀ rid, alistGet? current (toString d) = some rid → rid ≠ "" →
        kiMarker rid = false →
        rid ∈ update_avoid_list_for_reroll current ds acc
  | [], acc, d, hd, rid, hget, hne, hki => by simp at hd
  | d0 :: rest, acc, d, hd, rid, hget, hne, hki => by
    unfold update_avoid_list_for_reroll
    rw [List.foldl_cons]
    rcases List.mem_cons.mp hd with rfl | hd'
    · refine update_avoid_superset current rest _ rid ?_
      simp only [hget]
      rw [if_pos ⟨hne, hki⟩]
      by_cases hin : rid ∈ acc
      · rw [if_pos hin]
        exact hin
      · rw [if_neg hin]
        exact List.mem_append_right _ (List.mem_singleton.mpr rfl)
    · exact update_avoid_adds current rest _ d hd' rid hget hne hki

theorem mem_sInsert {α : Type} (le : α → α → Bool) (x y : α) :
    ∀ l : List α, y ∈ sInsert le x l ↔ y = x ∨ y ∈ l
  | [] => by simp [sInsert]
  | z :: zs => by
    unfold sInsert
    by_cases hle : le x z
    · rw [if_pos hle]
      simp
    · rw [if_neg hle]
      rw [List.mem_cons, List.mem_cons, mem_sInsert le x y zs]
      tauto

theorem mem_insSort {α : Type} (le : α → α → Bool) (y : α) :
    ∀ l : List α, y ∈ insSort le l ↔ y ∈ l
  | [] => Iff.rfl
  | x :: xs => by
    unfold insSort
    rw [mem_sInsert, List.mem_cons, mem_insSort le y xs]

theorem mem_pySortedUnique (l : List String) (x : String) (hx : x ∈ l) (hne : x ≠ "") :
    x ∈ pySortedUnique l := by
  unfold pySortedUnique
  rw [mem_insSort, List.mem_dedup, List.mem_filter]
  exact ⟨hx, by simpa using hne⟩

theorem kiMarker_append (a b : String) (h : kiMarker a = true) :
    kiMarker (a ++ b) = true := by
  unfold kiMarker at h ⊢
  rw [String.data_append]
  have hlen : 3 ≤ a.data.length := by
    by_contra hlt
    push_neg at hlt
    have htake : a.data.take 3 = a.data := List.take_of_length_le (by omega)
    rw [htake] at h
    have h3 : a.data.length = 3 := by
      rw [eq_of_beq h]
      rfl
    omega
  rw [List.take_append_of_le_length hlen]
  exact h

theorem mkDummies_ki (k : Nat) : ∀ x ∈ mkDummies k, kiMarker x = true := by
  intro x hx
  unfold mkDummies at hx
  rcases List.mem_map.mp hx with ⟨i, _, rfl⟩
  exact kiMarker_append "KI: Neues Rezept " (toString (i + 1)) (by decide)

theorem distribute_swap_value (stamp : String) :
    ∀ (ds : List Nat) (m : List (String × String)) (picked dummy : List String),
      (ds.map (fun d => toString d)).Nodup →
      (∀ x ∈ dummy, kiMarker x = true) →
      ∀ d ∈ ds, ∀ v,
        alistGet? (distribute stamp m ds picked dummy) (toString d) = some v →
        v ∈ picked ∨ kiMarker v = true
  | [], m, picked, dummy, _, _, d, hd, v, hv => by simp at hd
  | d0 :: rest, m, p :: ps, dummy, hnd, hdum, d, hd, v, hv => by
    rcases List.mem_cons.mp hd with rfl | hd'
    · have hout : toString d ∉ rest.map (fun e => toString e) := by
        rw [List.map_cons] at hnd
        exact (List.nodup_cons.mp hnd).1
      show v ∈ p :: ps ∨ _
      rw [show distribute stamp m (d :: rest) (p :: ps) dummy
          = distribute stamp (alistSet m (toString d) p) rest ps dummy from rfl] at hv
      rw [distribute_frame stamp rest _ ps dummy _ hout,
        alistGet?_alistSet_same] at hv
      have hvp : v = p := (Option.some.inj hv).symm
      rw [hvp]
      exact Or.inl (List.mem_cons_self _ _)
    · have hnd' : (rest.map (fun e => toString e)).Nodup := by
        rw [List.map_cons] at hnd
        exact (List.nodup_cons.mp hnd).2
      rcases distribute_swap_value stamp rest (alistSet m (toString d0) p) ps dummy
          hnd' hdum d hd' v hv with h1 | h1
      · exact Or.inl (List.mem_cons_of_mem _ h1)
      · exact Or.inr h1
  | d0 :: rest, m, [], dummy, hnd, hdum, d, hd, v, hv => by
    have hbase : kiMarker (dummy.headD "KI: Neues Rezept") = true := by
      rcases dummy with _ | ⟨x, xs⟩
      · decide
      · exact hdum x (List.mem_cons_self _ _)
    rcases List.mem_cons.mp hd with rfl | hd'
    · have hout : toString d ∉ rest.map (fun e => toString e) := by
        rw [List.map_cons] at hnd
        exact (List.nodup_cons.mp hnd).1
      rw [show distribute stamp m (d :: rest) [] dummy
          = distribute stamp (alistSet m (toString d)
              ((dummy.headD "KI: Neues Rezept") ++ " (" ++ stamp ++ "-" ++ toString d ++ ")"))
              rest [] dummy.tail from rfl] at hv
      rw [distribute_frame stamp rest _ [] dummy.tail _ hout,
        alistGet?_alistSet_same] at hv
      refine Or.inr ?_
      rw [(Option.some.inj hv).symm]
      exact kiMarker_append _ _ (kiMarker_append _ _ (kiMarker_append _ _
        (kiMarker_append _ _ (kiMarker_append _ _ hbase))))
    · have hnd' : (rest.map (fun e => toString e)).Nodup := by
        rw [List.map_cons] at hnd
        exact (List.nodup_cons.mp hnd).2
      rcases distribute_swap_value stamp rest _ [] dummy.tail hnd'
          (fun x hx => hdum x (List.mem_of_mem_tail hx)) d hd' v hv with h1 | h1
      · simp at h1
      · exact Or.inr h1

theorem toString_day_inj {d e : Nat} (hd1 : 1 ≤ d) (hd2 : d ≤ 7) (he1 : 1 ≤ e)
    (he2 : e ≤ 7) (h : toString d = toString e) : d = e := by
  interval_cases d <;> interval_cases e <;> first | rfl | exact absurd h (by decide)

theorem days_map_nodup {ds : List Nat} (hnd : ds.Nodup)
    (hbounds : ∀ d ∈ ds, 1 ≤ d ∧ d ≤ 7) :
    (ds.map (fun d => toString d)).Nodup :=
  hnd.map_on (fun x hx y hy hxy =>
    toString_day_inj (hbounds x hx).1 (hbounds x hx).2 (hbounds y hy).1
      (hbounds y hy).2 hxy)

theorem apply_swaps_swapped_values (recipes : List Recipe) (stamp : String)
    (base : List (String × String)) (ds : List Nat) (avoid : List String)
    (hids : (recipes.map Recipe.id).Nodup)
    (hnd : (ds.map (fun d => toString d)).Nodup) :
    ∀ d ∈ ds, ∀ v,
      alistGet? (apply_swaps recipes stamp base ds avoid) (toString d) = some v →
      kiMarker v = false →
      v ∉ ((base.map Prod.snd).filter (fun w => !(w == "") && !(kiMarker w))) ++ avoid := by
  intro d hd v hv hki hmem
  have hpick := (pick_recipes_spec recipes
    (((base.map Prod.snd).filter (fun w => !(w == "") && !(kiMarker w))) ++ avoid)
    ds.length [] 0 hids (Nat.zero_le _)).2.1
  rcases distribute_swap_value stamp ds
      (ds.foldl (fun m d => alistSet m (toString d) "") base) _ _ hnd
      (mkDummies_ki _) d hd v hv with h1 | h1
  · exact hpick v h1 hmem
  · rw [h1] at hki
    exact Bool.noConfusion hki

/-- C2 (amended): on a swap request in a live drafting session (a draft with
proposed days exists), every rerolled day currently showing a real recipe has
that id added to the persisted avoid-set first, and every real id newly
assigned to a swapped day avoids the whole banned set — every real id of the
draft base mapping and the updated avoid-set.  In particular rerolling day X
twice never re-suggests the id that occupied day X immediately before the
second reroll.  (The id occupying day X in the *original* plan is not in this
banned set and can be re-suggested; see the counterexample.) -/
theorem swap_with_draft_avoid_spec
    (recipes : List Recipe) (stamp : String) (s : AppState) (ds : List Nat)
    (p : List (String × String)) (dr : Draft)
    (hp : s.plan = some p) (hd : s.draft = some dr) (hne : dr.proposed_days ≠ [])
    (hids : (recipes.map Recipe.id).Nodup)
    (hnd : ds.Nodup) (hbounds : ∀ d ∈ ds, 1 ≤ d ∧ d ≤ 7) :
    (swapOp recipes stamp s ds).1
      = ⟨some p,
         some ⟨apply_swaps recipes stamp dr.proposed_days ds
            (update_avoid_list_for_reroll dr.proposed_days ds s.avoid), ds⟩,
         pySortedUnique (update_avoid_list_for_reroll dr.proposed_days ds s.avoid)⟩ ∧
    (∀ d ∈ ds, ∀ rid, alistGet? dr.proposed_days (toString d) = some rid →
      rid ≠ "" → kiMarker rid = false →
      rid ∈ (swapOp recipes stamp s ds).1.avoid) ∧
    (∀ d ∈ ds, ∀ v,
      alistGet? (apply_swaps recipes stamp dr.proposed_days ds
          (update_avoid_list_for_reroll dr.proposed_days ds s.avoid)) (toString d)
        = some v →
      kiMarker v = false →
      v ∉ update_avoid_list_for_reroll dr.proposed_days ds s.avoid ∧
      ∀ w ∈ dr.proposed_days.map Prod.snd, w ≠ "" → kiMarker w = false → v ≠ w) := by
  obtain ⟨plan, draft, avoid⟩ := s
  obtain rfl : plan = some p := hp
  obtain rfl : draft = some dr := hd
  obtain ⟨pd, rs⟩ := dr
  have heq : (swapOp recipes stamp ⟨some p, some ⟨pd, rs⟩, avoid⟩ ds).1
      = ⟨some p,
         some ⟨apply_swaps recipes stamp pd ds
            (update_avoid_list_for_reroll pd ds avoid), ds⟩,
         pySortedUnique (update_avoid_list_for_reroll pd ds avoid)⟩ := by
    cases pd with
    | nil => exact absurd rfl hne
    | cons x xs => rfl
  refine ⟨heq, ?_, ?_⟩
  · intro d hd rid hget hne' hki
    rw [heq]
    exact mem_pySortedUnique _ _ (update_avoid_adds pd ds avoid d hd rid hget hne' hki) hne'
  · intro d hd v hget hki
    have hnot := apply_swaps_swapped_values recipes stamp pd ds
      (update_avoid_list_for_reroll pd ds avoid) hids
      (days_map_nodup hnd hbounds) d hd v hget hki
    constructor
    · intro hmem
      exact hnot (List.mem_append_right _ hmem)
    · intro w hw hwne hwki hvw
      subst hvw
      refine hnot (List.mem_append_left _ ?_)
      rw [List.mem_filter]
      refine ⟨hw, ?_⟩
      simp only [Bool.and_eq_true, Bool.not_eq_true']
      constructor
      · rw [beq_eq_false_iff_ne]
        exact hwne
      · exact hwki

/-- C2 (counterexample): swapping day 3 twice in one session can hand back the
recipe that occupied day 3 in the *original* plan — the first reroll replaces
id "3" by "8" (and clears the avoid-set since the session starts fresh), the
second reroll bans only the draft ids and "8", so a randomized order listing
recipe "3" first re-suggests it: the final draft equals the original plan. -/
theorem swap_twice_resuggests_original_cex :
    (swapOp [⟨"8", []⟩] "100000"
        ⟨some [("1", "1"), ("2", "2"), ("3", "3"), ("4", "4"), ("5", "5"), ("6", "6"),
          ("7", "7")], none, []⟩ [3]).1.draft
      = some ⟨[("1", "1"), ("2", "2"), ("3", "8"), ("4", "4"), ("5", "5"), ("6", "6"),
          ("7", "7")], [3]⟩ ∧
    (swapOp [⟨"3", []⟩, ⟨"8", []⟩] "100001"
        ((swapOp [⟨"8", []⟩] "100000"
            ⟨some [("1", "1"), ("2", "2"), ("3", "3"), ("4", "4"), ("5", "5"), ("6", "6"),
              ("7", "7")], none, []⟩ [3]).1) [3]).1.draft
      = some ⟨[("1", "1"), ("2", "2"), ("3", "3"), ("4", "4"), ("5", "5"), ("6", "6"),
          ("7", "7")], [3]⟩ := by
  decide

theorem swap_with_draft_avoid_spec_witness :
    ((⟨some [("1", "a")], some ⟨[("1", "b")], [1]⟩, []⟩ : AppState).plan = some [("1", "a")] ∧
     ([1] : List Nat).Nodup ∧ (∀ d ∈ ([1] : List Nat), 1 ≤ d ∧ d ≤ 7)) ∧
    ((swapOp [⟨"c", []⟩] "100000" ⟨some [("1", "a")], some ⟨[("1", "b")], [1]⟩, []⟩ [1]).1
      = ⟨some [("1", "a")],
         some ⟨apply_swaps [⟨"c", []⟩] "100000" [("1", "b")] [1]
            (update_avoid_list_for_reroll [("1", "b")] [1] []), [1]⟩,
         pySortedUnique (update_avoid_list_for_reroll [("1", "b")] [1] [])⟩ ∧
     (∀ d ∈ ([1] : List Nat), ∀ rid, alistGet? [("1", "b")] (toString d) = some rid →
       rid ≠ "" → kiMarker rid = false →
       rid ∈ (swapOp [⟨"c", []⟩] "100000"
         ⟨some [("1", "a")], some ⟨[("1", "b")], [1]⟩, []⟩ [1]).1.avoid) ∧
     (∀ d ∈ ([1] : List Nat), ∀ v,
       alistGet? (apply_swaps [⟨"c", []⟩] "100000" [("1", "b")] [1]
           (update_avoid_list_for_reroll [("1", "b")] [1] [])) (toString d) = some v →
       kiMarker v = false →
       v ∉ update_avoid_list_for_reroll [("1", "b")] [1] [] ∧
       ∀ w ∈ ([("1", "b")] : List (String × String)).map Prod.snd,
         w ≠ "" → kiMarker w = false → v ≠ w)) :=
  ⟨⟨rfl, by decide, by decide⟩,
   swap_with_draft_avoid_spec [⟨"c", []⟩] "100000"
     ⟨some [("1", "a")], some ⟨[("1", "b")], [1]⟩, []⟩ [1] [("1", "a")] ⟨[("1", "b")], [1]⟩
     rfl rfl (by decide) (by decide) (by decide) (by decide)⟩


/-! ### C10 — duplicate canonical keys reject the later group entirely -/

/-- C10: when a group's canonical key (canonical name or, if blank, the merged
line, normalized) is already registered by an earlier accepted group of the
same response, `stepGroup` leaves the validator state completely unchanged:
the merged line is not emitted and none of the group's indexes are claimed,
so the corresponding input rows stay uncovered and are appended verbatim by
the later append phase (subject to the final key dedup). -/
theorem duplicate_group_key_rejected (n : Nat) (st : VState) (g : RawGroup)
    (k : List Char) (hk : groupKeyOf g = some k) (hmem : k ∈ st.seenGroups) :
    stepGroup n st g = st := by
  rcases hml : g.merged_line with _ | ml
  · unfold stepGroup
    rw [hml]
  · unfold stepGroup
    rw [hml]
    dsimp only
    by_cases h1 : pyStrip ml = ""
    · rw [if_pos h1]
    · rw [if_neg h1]
      by_cases h2 : (looks_like_calculation ml : Bool)
      · rw [if_pos h2]
      · rw [if_neg h2]
        rcases hsi : g.source_indexes with _ | idxs
        · rfl
        · dsimp only
          by_cases h3 : idxs = []
          · rw [if_pos h3]
          · rw [if_neg h3]
            by_cases h4 : computeLocal idxs n st.seenIdx = []
            · rw [if_pos h4]
            · rw [if_neg h4, hk]
              show (if k ∈ st.seenGroups then st else _) = st
              rw [if_pos hmem]

theorem duplicate_group_key_rejected_witness :
    groupKeyOf ⟨some "Milch!", some "andere Milch", some [some 1]⟩ = some "milch".data ∧
    "milch".data ∈ (⟨[0], ["milch".data], [([0], "Milch")]⟩ : VState).seenGroups ∧
    stepGroup 2 ⟨[0], ["milch".data], [([0], "Milch")]⟩
        ⟨some "Milch!", some "andere Milch", some [some 1]⟩
      = ⟨[0], ["milch".data], [([0], "Milch")]⟩ :=
  ⟨by decide, by decide,
   duplicate_group_key_rejected 2 ⟨[0], ["milch".data], [([0], "Milch")]⟩
     ⟨some "Milch!", some "andere Milch", some [some 1]⟩ "milch".data
     (by decide) (by decide)⟩


/-! ### C4 — index accounting of the stage-B validator -/

theorem computeLocal_aux (n : Nat) (seen : List Nat) :
    ∀ (idxs : List (Option Int)) (acc : List Nat),
      acc.Nodup → (∀ j ∈ acc, j < n) →
      (idxs.foldl (localStep n seen) acc).Nodup ∧
      ∀ j ∈ idxs.foldl (localStep n seen) acc, j ∈ acc ∨ (j < n ∧ j ∉ seen)
  | [], acc, hnd, hb => ⟨hnd, fun j hj => Or.inl hj⟩
  | oi :: rest, acc, hnd, hb => by
    rw [List.foldl_cons]
    have hstep : (localStep n seen acc oi).Nodup ∧
        (∀ j ∈ localStep n seen acc oi, j < n) ∧
        (∀ j ∈ localStep n seen acc oi, j ∈ acc ∨ (j < n ∧ j ∉ seen)) := by
      rcases oi with _ | i
      · exact ⟨hnd, hb, fun j hj => Or.inl hj⟩
      · unfold localStep
        dsimp only
        by_cases h1 : i < 0 ∨ (n : Int) ≤ i
        · rw [if_pos h1]
          exact ⟨hnd, hb, fun j hj => Or.inl hj⟩
        · rw [if_neg h1]
          push_neg at h1
          by_cases h2 : i.toNat ∈ acc ∨ i.toNat ∈ seen
          · rw [if_pos h2]
            exact ⟨hnd, hb, fun j hj => Or.inl hj⟩
          · rw [if_neg h2]
            push_neg at h2
            have hlt : i.toNat < n := by omega
            refine ⟨?_, ?_, ?_⟩
            · simp [List.nodup_append, hnd]
              exact h2.1
            · intro j hj
              rcases List.mem_append.mp hj with hj1 | hj1
              · exact hb j hj1
              · rw [List.mem_singleton.mp hj1]
                exact hlt
            · intro j hj
              rcases List.mem_append.mp hj with hj1 | hj1
              · exact Or.inl hj1
              · rw [List.mem_singleton.mp hj1]
                exact Or.inr ⟨hlt, h2.2⟩
    rcases computeLocal_aux n seen rest (localStep n seen acc oi) hstep.1 hstep.2.1
      with ⟨hnd', hmem'⟩
    refine ⟨hnd', ?_⟩
    intro j hj
    rcases hmem' j hj with hj1 | hj1
    · exact hstep.2.2 j hj1
    · exact Or.inr hj1

theorem computeLocal_spec (idxs : List (Option Int)) (n : Nat) (seen : List Nat) :
    (computeLocal idxs n seen).Nodup ∧
    ∀ j ∈ computeLocal idxs n seen, j < n ∧ j ∉ seen := by
  rcases computeLocal_aux n seen idxs [] List.nodup_nil (by simp) with ⟨h1, h2⟩
  refine ⟨h1, fun j hj => ?_⟩
  rcases h2 j hj with hj1 | hj1
  · simp at hj1
  · exact hj1

/-- The loop invariant of the validator: the claimed-index set is exactly the
flattened accepted index lists, without duplicates and in range. -/
def VInv (n : Nat) (st : VState) : Prop :=
  st.seenIdx = (st.acc.map Prod.fst).flatten ∧
  st.seenIdx.Nodup ∧
  ∀ i ∈ st.seenIdx, i < n

theorem stepGroup_inv (n : Nat) (st : VState) (g : RawGroup) (hinv : VInv n st) :
    VInv n (stepGroup n st g) := by
  rcases hml : g.merged_line with _ | ml
  · unfold stepGroup
    rw [hml]
    exact hinv
  · unfold stepGroup
    rw [hml]
    dsimp only
    by_cases h1 : pyStrip ml = ""
    · rw [if_pos h1]
      exact hinv
    · rw [if_neg h1]
      by_cases h2 : (looks_like_calculation ml : Bool)
      · rw [if_pos h2]
        exact hinv
      · rw [if_neg h2]
        rcases hsi : g.source_indexes with _ | idxs
        · exact hinv
        · dsimp only
          by_cases h3 : idxs = []
          · rw [if_pos h3]
            exact hinv
          · rw [if_neg h3]
            by_cases h4 : computeLocal idxs n st.seenIdx = []
            · rw [if_pos h4]
              exact hinv
            · rw [if_neg h4]
              rcases hgk : groupKeyOf g with _ | gk
              · exact hinv
              · dsimp only
                by_cases h5 : gk ∈ st.seenGroups
                · rw [if_pos h5]
                  exact hinv
                · rw [if_neg h5]
                  rcases hinv with ⟨hjoin, hnd, hbound⟩
                  rcases computeLocal_spec idxs n st.seenIdx with ⟨hlnd, hlspec⟩
                  refine ⟨?_, ?_, ?_⟩
                  · show st.seenIdx ++ computeLocal idxs n st.seenIdx
                      = ((st.acc ++ [(computeLocal idxs n st.seenIdx, pyStrip ml)]).map
                          Prod.fst).flatten
                    rw [List.map_append, List.flatten_append, ← hjoin]
                    simp
                  · show (st.seenIdx ++ computeLocal idxs n st.seenIdx).Nodup
                    rw [List.nodup_append]
                    exact ⟨hnd, hlnd, fun a ha ha' => (hlspec a ha').2 ha⟩
                  · intro i hi
                    rcases List.mem_append.mp hi with hi1 | hi1
                    · exact hbound i hi1
                    · exact (hlspec i hi1).1

theorem processGroups_inv (n : Nat) :
    ∀ (gs : List (Option RawGroup)) (st st' : VState),
      processGroups n gs st = some st' → VInv n st → VInv n st'
  | [], st, st', h, hinv => by
    rw [show st' = st from (Option.some.inj h).symm]
    exact hinv
  | none :: rest, st, st', h, hinv => by
    exact Option.noConfusion h
  | some g :: rest, st, st', h, hinv =>
    processGroups_inv n rest (stepGroup n st g) st' h (stepGroup_inv n st g hinv)

/-- C4 (amended): for every accepted assistant response, the accepted groups
claim pairwise-disjoint, duplicate-free index sets, and every input index is
accounted for exactly once in the accepted+appended output *before* the final
key dedup: it is either claimed by exactly one accepted group (whose merged
line is emitted) or its line is appended verbatim.  The final output then
deduplicates by normalized key, which can drop an appended line whose key
collides with an earlier line (see the counterexample). -/
theorem validator_pre_dedup_accounts (gs : List (Option RawGroup))
    (input : List String) (st : VState)
    (h : processGroups input.length gs ⟨[], [], []⟩ = some st)
    (hlines : ∀ l ∈ input, pyStrip l ≠ "") :
    ((st.acc.map Prod.fst).flatten).Nodup ∧
    ∀ i, i < input.length →
      ((i ∈ (st.acc.map Prod.fst).flatten ∧
        ∃ pr ∈ st.acc, i ∈ pr.1 ∧ pr.2 ∈ preOut st input) ∨
       (i ∉ (st.acc.map Prod.fst).flatten ∧
        pyStrip (input.getD i "") ∈ preOut st input)) := by
  have hinv : VInv input.length st :=
    processGroups_inv input.length gs ⟨[], [], []⟩ st h ⟨rfl, List.nodup_nil, by simp⟩
  rcases hinv with ⟨hjoin, hnd, hbound⟩
  constructor
  · rw [← hjoin]
    exact hnd
  · intro i hi
    by_cases hcov : i ∈ (st.acc.map Prod.fst).flatten
    · refine Or.inl ⟨hcov, ?_⟩
      rcases List.mem_flatten.mp hcov with ⟨l, hl, hil⟩
      rcases List.mem_map.mp hl with ⟨pr, hpr, rfl⟩
      refine ⟨pr, hpr, hil, ?_⟩
      exact List.mem_append_left _ (List.mem_map.mpr ⟨pr, hpr, rfl⟩)
    · refine Or.inr ⟨hcov, ?_⟩
      have hiseen : i ∉ st.seenIdx := by
        rw [hjoin]
        exact hcov
      refine List.mem_append_right _ ?_
      unfold appendedLines
      refine List.mem_filterMap.mpr ⟨i, List.mem_range.mpr hi, ?_⟩
      rw [if_neg hiseen]
      have hmem : input.getD i "" ∈ input := by
        rw [List.getD_eq_getElem?_getD, List.getElem?_eq_getElem hi]
        exact List.getElem_mem _
      rw [if_neg (hlines _ hmem)]

/-- C4 (counterexample): an accepted response over the two distinct stage-A
lines "Rote Beete" and "Rotebeete" (their normalized keys coincide) whose one
group claims only index 0: index 1 is uncovered and its line is appended, but
the final key dedup then drops it, so index 1 is accounted for by nothing in
the final output. -/
theorem validator_dedup_drops_appended_cex :
    pre_aggregate_lines ["Rote Beete".data, "Rotebeete".data]
      = ["Rote Beete".data, "Rotebeete".data] ∧
    processGroups 2 [some ⟨some "Rote Beete", some "Rote Beete", some [some 0]⟩]
        ⟨[], [], []⟩
      = some ⟨[0], ["rotebeete".data], [([0], "Rote Beete")]⟩ ∧
    validate_grouped_output
        (some [some ⟨some "Rote Beete", some "Rote Beete", some [some 0]⟩])
        ["Rote Beete", "Rotebeete"]
      = some ["Rote Beete"] ∧
    "Rotebeete" ∉ (["Rote Beete"] : List String) := by
  refine ⟨by decide, by decide, by decide, by decide⟩

theorem validator_pre_dedup_accounts_witness :
    (processGroups 1 [some ⟨some "A", some "A", some [some 0]⟩] ⟨[], [], []⟩
      = some ⟨[0], ["a".data], [([0], "A")]⟩ ∧
     ∀ l ∈ (["A"] : List String), pyStrip l ≠ "") ∧
    ((((⟨[0], ["a".data], [([0], "A")]⟩ : VState).acc.map Prod.fst).flatten).Nodup ∧
     ∀ i, i < (["A"] : List String).length →
       ((i ∈ (((⟨[0], ["a".data], [([0], "A")]⟩ : VState).acc.map Prod.fst).flatten) ∧
         ∃ pr ∈ (⟨[0], ["a".data], [([0], "A")]⟩ : VState).acc, i ∈ pr.1 ∧
           pr.2 ∈ preOut ⟨[0], ["a".data], [([0], "A")]⟩ ["A"]) ∨
        (i ∉ (((⟨[0], ["a".data], [([0], "A")]⟩ : VState).acc.map Prod.fst).flatten) ∧
         pyStrip ((["A"] : List String).getD i "")
           ∈ preOut ⟨[0], ["a".data], [([0], "A")]⟩ ["A"]))) :=
  ⟨⟨by decide, by decide⟩,
   validator_pre_dedup_accounts [some ⟨some "A", some "A", some [some 0]⟩] ["A"]
     ⟨[0], ["a".data], [([0], "A")]⟩ (by decide) (by decide)⟩


/-! ### C5 — fallback behaviour of transform_shop_list on assistant failure -/

theorem stage_a_lines_ne_nil (lines : List String)
    (hne : expandedInput lines ≠ []) : stage_a_lines lines ≠ [] := by
  unfold stage_a_lines
  dsimp only
  by_cases hp : pre_aggregate_lines (expandedInput lines) ≠ []
  · rw [if_pos hp]
    simpa using hp
  · rw [if_neg hp]
    simpa using hne

/-- C5 (amended): on an *assistant* failure — client import unavailable,
remote-call exception, non-object payload, or a payload rejected by the
stage-B validator (including a validated-but-empty result on non-empty
input) — `transform_shop_list` returns the deterministic stage-A line list
together with the warning "AI Sortierung nicht verfügbar.", provided the
input is non-empty, an API key is configured, and the stage-A list does not
exceed the size cap.  The *no-credential* case is different: there the
function returns result `None` with the same warning, not the stage-A list
(see the counterexample). -/
theorem transform_failure_falls_back (env : AIEnv) (call : CallOutcome)
    (lines : List String)
    (hne : expandedInput lines ≠ [])
    (hkey : env.has_api_key = true)
    (hcap : (stage_a_lines lines).length ≤ env.max_lines)
    (hfail : env.client_available = false ∨ call = .exn ∨ call = .notDict ∨
      (∃ gf, call = .dict gf ∧
        (validate_grouped_output gf (stage_a_lines lines) = none ∨
         validate_grouped_output gf (stage_a_lines lines) = some []))) :
    transform_shop_list env call lines
      = (some (stage_a_lines lines), some "AI Sortierung nicht verfügbar.") := by
  have hcl : stage_a_lines lines ≠ [] := stage_a_lines_ne_nil lines hne
  unfold transform_shop_list
  rw [if_neg hne]
  dsimp only
  rw [if_neg (by omega : ¬ env.max_lines < (stage_a_lines lines).length)]
  rw [hkey]
  rw [if_neg (by simp : ¬ ((true : Bool) = false))]
  by_cases hca : env.client_available = false
  · rw [if_pos hca]
  · rw [if_neg hca]
    rcases hfail with hc | hc | hc | ⟨gf, hcall, hv⟩
    · exact absurd hc hca
    · rw [hc]
    · rw [hc]
    · rw [hcall]
      dsimp only
      rcases hv with hv | hv
      · rw [hv]
      · rw [hv]
        dsimp only
        rw [if_pos ⟨rfl, hcl⟩]

/-- C5 (counterexample): with no API key configured the function does *not*
fall back to the stage-A list — it returns result `None` (so the caller
cannot proceed on stage A output from this return value) together with the
warning, even though the stage-A list for the same input is non-empty. -/
theorem transform_no_key_returns_none_cex :
    transform_shop_list ⟨false, true, 80⟩ .exn ["Mehl"]
      = (none, some "AI Sortierung nicht verfügbar.") ∧
    stage_a_lines ["Mehl"] = ["Mehl"] := by
  refine ⟨by decide, by decide⟩

theorem transform_failure_falls_back_witness :
    (expandedInput ["Mehl"] ≠ [] ∧
     (⟨true, false, 80⟩ : AIEnv).has_api_key = true ∧
     (stage_a_lines ["Mehl"]).length ≤ (⟨true, false, 80⟩ : AIEnv).max_lines) ∧
    transform_shop_list ⟨true, false, 80⟩ .exn ["Mehl"]
      = (some (stage_a_lines ["Mehl"]), some "AI Sortierung nicht verfügbar.") :=
  ⟨⟨by decide, by decide, by decide⟩,
   transform_failure_falls_back ⟨true, false, 80⟩ .exn ["Mehl"]
     (by decide) (by decide) (by decide) (Or.inl (by decide))⟩

end FamilyOps
